import Mathlib

/-!
Verification of the placeholder-substitution and financial-table-synthesis
engine of `ppt_generator.py` (class `PPTGenerator`).

Python text values are embedded as `List Char`; Python numbers are embedded
as exact rationals (`ℚ`).  Dictionaries are embedded as association lists
with in-place update, mirroring `dict` assignment.  Fallible operations
return `Option`.  All definitions are executable.
-/

namespace PptGen

/-! ## Basic Python-style string helpers -/

/-- Characters treated as whitespace by Python `str.strip`, `str.split()` and
the regex class `\s` (ASCII range; the repository's data is ASCII except for
a mojibake bullet handled separately). -/
def isPyWs (c : Char) : Bool :=
  c = ' ' ∨ c = '\t' ∨ c = '\n' ∨ c = '\r' ∨ c = '\x0b' ∨ c = '\x0c'

/-- Decimal digit test, as in `float()` parsing. -/
def isDigitC (c : Char) : Bool := '0' ≤ c ∧ c ≤ '9'

/-- Does `pat` occur at the head of `l`? -/
def listStartsWith : List Char → List Char → Bool
  | [], _ => true
  | _ :: _, [] => false
  | p :: ps, c :: cs => p = c && listStartsWith ps cs

/-- Does `l` end with `pat`?  (Python `str.endswith`.) -/
def listEndsWith (pat l : List Char) : Bool :=
  listStartsWith pat.reverse l.reverse

/-- Split `l` at the first occurrence of `pat`: returns the part before and
the part after the occurrence (Python `str.find` / slicing). -/
def splitOnce (pat : List Char) : List Char → Option (List Char × List Char)
  | [] => if listStartsWith pat [] then some ([], []) else Option.none
  | c :: r =>
      if listStartsWith pat (c :: r) then some ([], (c :: r).drop pat.length)
      else (splitOnce pat r).map (fun p => (c :: p.1, p.2))

/-- Python `pat in l` substring test. -/
def containsSub (l pat : List Char) : Bool := (splitOnce pat l).isSome

/-- Python `l.replace(pat, new, 1)`: replace the first occurrence only. -/
def replaceFirst (l pat new : List Char) : List Char :=
  match splitOnce pat l with
  | some (a, b) => a ++ new ++ b
  | Option.none => l

/-- Fuelled worker for `replaceAll`; the fuel bounds the number of
replacements, which is at most the length of the subject string. -/
def replaceAllAux (pat new : List Char) : ℕ → List Char → List Char
  | 0, l => l
  | fuel + 1, l =>
      match splitOnce pat l with
      | some (a, b) => a ++ new ++ replaceAllAux pat new fuel b
      | Option.none => l

/-- Python `l.replace(pat, new)`: replace every occurrence, scanning left to
right past each replacement. -/
def replaceAll (l pat new : List Char) : List Char :=
  replaceAllAux pat new (l.length + 1) l

/-- Python `s.split(sep)` for a single separator character: always returns at
least one (possibly empty) piece. -/
def splitChar (sep : Char) : List Char → List (List Char)
  | [] => [[]]
  | c :: r =>
      match splitChar sep r with
      | [] => if c = sep then [[], []] else [[c]]
      | h :: t => if c = sep then [] :: h :: t else (c :: h) :: t

/-- Python `sep.join(pieces)` for the one-character separator `sep`. -/
def joinChar (sep : Char) : List (List Char) → List Char
  | [] => []
  | [x] => x
  | x :: y :: t => x ++ sep :: joinChar sep (y :: t)

/-- Python `str.strip()`: drop leading and trailing whitespace. -/
def pythonStrip (l : List Char) : List Char :=
  ((l.dropWhile isPyWs).reverse.dropWhile isPyWs).reverse

/-- Remove every whitespace character: Python `"".join(s.split())`. -/
def cleanWs (l : List Char) : List Char := l.filter (fun c => ¬ isPyWs c)

/-! ## Embedded Python scalar values and dictionaries -/

/-- A Python scalar as it appears in the input record: `None`, a string, or a
number (ints and floats are both embedded as exact rationals). -/
inductive Val where
  | null : Val
  | str (s : String) : Val
  | num (q : ℚ) : Val
deriving DecidableEq, Repr

/-- The caller's record: a Python `dict` keyed by strings, embedded as an
association list in insertion order. -/
abbrev Record := List (String × Val)

/-- Python `d.get(k)`: `Option.none` models an absent key (Python `None`). -/
def dictGet : Record → String → Option Val
  | [], _ => Option.none
  | (k, v) :: r, key => if k = key then some v else dictGet r key

/-- Python `d[k] = v`: replaces the value in place if the key exists,
otherwise appends the new binding (dict insertion order). -/
def dictSet : Record → String → Val → Record
  | [], key, v => [(key, v)]
  | (k, w) :: r, key, v =>
      if k = key then (key, v) :: r else (k, w) :: dictSet r key v

/-! ## Numeric parsing and formatting -/

/-- Value of a digit character. -/
def digitVal (c : Char) : ℕ := c.toNat - '0'.toNat

/-- Accumulate a digit list into a natural number. -/
def digitsToNat (l : List Char) : ℕ :=
  l.foldl (fun acc c => 10 * acc + digitVal c) 0

/-- Parser for Python `float()` on plain decimal literals: optional sign,
digits with at most one decimal point, optional decimal exponent;
surrounding whitespace is tolerated (as `float()` itself strips it).
`inf`/`nan` and underscore separators are not modelled: the repository's
numeric fields are plain decimals. -/
def pyFloat (l0 : List Char) : Option ℚ :=
  let l := pythonStrip l0
  let (sign, l) :=
    match l with
    | '-' :: r => ((-1 : ℚ), r)
    | '+' :: r => ((1 : ℚ), r)
    | _ => ((1 : ℚ), l)
  let intPart := l.takeWhile isDigitC
  let rest := l.drop intPart.length
  let (fracPart, rest) :=
    match rest with
    | '.' :: r => (r.takeWhile isDigitC, (r.takeWhile isDigitC).length |> r.drop)
    | _ => ([], rest)
  let (expVal, rest) :=
    match rest with
    | 'e' :: r | 'E' :: r =>
        let (esign, r') :=
          match r with
          | '-' :: r' => ((-1 : ℤ), r')
          | '+' :: r' => ((1 : ℤ), r')
          | _ => ((1 : ℤ), r)
        let edigits := r'.takeWhile isDigitC
        if edigits = [] then ((0 : ℤ), ['x'])  -- a non-empty rest forces failure below
        else (esign * (digitsToNat edigits : ℤ), r'.drop edigits.length)
    | _ => ((0 : ℤ), rest)
  if intPart = [] ∧ fracPart = [] then Option.none
  else if rest ≠ [] then Option.none
  else
    let mant : ℚ := (digitsToNat intPart : ℚ) +
      (digitsToNat fracPart : ℚ) / ((10 : ℚ) ^ fracPart.length)
    some (sign * mant * (10 : ℚ) ^ expVal)

/-- Floor of a rational, via floor division of numerator by denominator. -/
def ratFloor (q : ℚ) : ℤ := Int.fdiv q.num (q.den : ℤ)

/-- Round-half-to-even of a rational to an integer, the rounding used by
Python `format` (exact rationals stand in for binary doubles; the inputs the
generator formats are exactly representable at this precision). -/
def roundHalfEven (q : ℚ) : ℤ :=
  let f := ratFloor q
  let r := q - (f : ℚ)
  if r < 1 / 2 then f
  else if 1 / 2 < r then f + 1
  else if f % 2 = 0 then f else f + 1

/-- Decimal digits of a natural number, most significant first. -/
def natToStr (n : ℕ) : String := (Nat.toDigits 10 n).asString

/-- Group the reversed digit list in blocks of three with commas
(worker for the thousands separator of Python `"{:,.0f}".format`,
written with escaped braces in this comment's source). -/
def groupRevAux : ℕ → List Char → List Char
  | 0, l => l
  | fuel + 1, l =>
      if l.length ≤ 3 then l
      else l.take 3 ++ ',' :: groupRevAux fuel (l.drop 3)

/-- Python format spec `:,.0f`: round to zero decimals, thousands commas.
(The Python sign of a negative zero, `-0`, is simplified to `0`.) -/
def fmtComma0 (q : ℚ) : String :=
  let n := roundHalfEven q
  let ds := (Nat.toDigits 10 n.natAbs)
  let grouped := (groupRevAux ds.length ds.reverse).reverse
  (if n < 0 then "-" else "") ++ grouped.asString

/-- Python format spec `:.1f`: one decimal place, round half to even.
(The Python output `-0.0` for tiny negatives is simplified to `0.0`.) -/
def fmtDot1 (q : ℚ) : String :=
  let n := roundHalfEven (q * 10)
  let m := n.natAbs
  (if n < 0 then "-" else "") ++ natToStr (m / 10) ++ "." ++ natToStr (m % 10)

/-! ## Financial helpers from `populate_from_data`
(`src/ppt_generator.py` lines 694-781) -/

/-- Mirrors the nested helper `safe_float` (lines 749-756): `None`, the empty
string and `"-"` are missing; strings are parsed after removing thousands
commas and stripping; parse failures degrade to `None`. -/
def safe_float (val : Option Val) : Option ℚ :=
  match val with
  | Option.none => Option.none
  | some Val.null => Option.none
  | some (Val.str s) =>
      if s = "" ∨ s = "-" then Option.none
      else pyFloat (pythonStrip ((s.data.filter (fun c => c ≠ ','))))
  | some (Val.num q) => some q

/-- Mirrors the nested helper `p_float` of the enrichment step (lines
695-700); it differs from `safe_float` only in not calling `.strip()`
explicitly, which `float()` performs anyway. -/
def p_float (val : Option Val) : Option ℚ :=
  match val with
  | Option.none => Option.none
  | some Val.null => Option.none
  | some (Val.str s) =>
      if s = "" ∨ s = "-" then Option.none
      else pyFloat (s.data.filter (fun c => c ≠ ','))
  | some (Val.num q) => some q

/-- Mirrors `calc_growth` (lines 759-765): year-over-year growth percentage
with one decimal place, degrading to `"-"` when either operand is missing or
the previous value is zero. -/
def calc_growth (current_val prev_val : Option Val) : String :=
  match safe_float current_val, safe_float prev_val with
  | some curr, some prev =>
      if prev ≠ 0 then fmtDot1 ((curr - prev) / |prev| * 100) else "-"
  | _, _ => "-"

/-- Mirrors `calc_margin` (lines 768-774): percentage ratio with one decimal
place, degrading to `"-"` on missing operands or a zero denominator. -/
def calc_margin (numerator_val denominator_val : Option Val) : String :=
  match safe_float numerator_val, safe_float denominator_val with
  | some num, some den =>
      if den ≠ 0 then fmtDot1 (num / den * 100) else "-"
  | _, _ => "-"

/-- Mirrors `get_val_fmt` with the default format `:,.0f` (lines 777-781). -/
def get_val_fmt (data : Record) (key : String) : String :=
  match safe_float (dictGet data key) with
  | some v => fmtComma0 v
  | Option.none => "-"

/-- Mirrors `get_val_fmt` with the explicit format `:.1f` used for the P/E
and P/B rows. -/
def get_val_fmt1 (data : Record) (key : String) : String :=
  match safe_float (dictGet data key) with
  | some v => fmtDot1 v
  | Option.none => "-"

/-- The grid the table synthesizer builds when no markdown table is supplied
(`populate_from_data`, lines 783-862): the header row prepended to the nine
data rows (Sales, YoY%, EBITDA, %Margin, YoY%, PAT, YoY%, P/E, P/B). -/
def buildFinancialTable (data : Record) : List (List String) :=
  let sales_24 := dictGet data "revenue_fy24"
  let sales_25 := dictGet data "revenue_fy25"
  let sales_26 := dictGet data "revenue_fy26"
  let sales_27 := dictGet data "revenue_fy27"
  let sales_28 := dictGet data "revenue_fy28"
  let ebitda_24 := dictGet data "ebitda_fy24"
  let ebitda_25 := dictGet data "ebitda_fy25"
  let ebitda_26 := dictGet data "ebitda_fy26"
  let ebitda_27 := dictGet data "ebitda_fy27"
  let ebitda_28 := dictGet data "ebitda_fy28"
  let pat_24 := dictGet data "pat_fy24"
  let pat_25 := dictGet data "pat_fy25"
  let pat_26 := dictGet data "pat_fy26"
  let pat_27 := dictGet data "pat_fy27"
  let pat_28 := dictGet data "pat_fy28"
  let headers := ["Particulars", "FY24A", "FY25A", "FY26E", "FY27E", "FY28E"]
  headers ::
  [["Sales",
    get_val_fmt data "revenue_fy24", get_val_fmt data "revenue_fy25",
    get_val_fmt data "revenue_fy26", get_val_fmt data "revenue_fy27",
    get_val_fmt data "revenue_fy28"],
   ["YoY% growth",
    calc_growth sales_24 (dictGet data "revenue_fy23"),
    calc_growth sales_25 sales_24,
    calc_growth sales_26 sales_25,
    calc_growth sales_27 sales_26,
    calc_growth sales_28 sales_27],
   ["EBITDA",
    get_val_fmt data "ebitda_fy24", get_val_fmt data "ebitda_fy25",
    get_val_fmt data "ebitda_fy26", get_val_fmt data "ebitda_fy27",
    get_val_fmt data "ebitda_fy28"],
   ["% Margin",
    calc_margin ebitda_24 sales_24, calc_margin ebitda_25 sales_25,
    calc_margin ebitda_26 sales_26, calc_margin ebitda_27 sales_27,
    calc_margin ebitda_28 sales_28],
   ["YoY% growth",
    calc_growth ebitda_24 (dictGet data "ebitda_fy23"),
    calc_growth ebitda_25 ebitda_24,
    calc_growth ebitda_26 ebitda_25,
    calc_growth ebitda_27 ebitda_26,
    calc_growth ebitda_28 ebitda_27],
   ["PAT",
    get_val_fmt data "pat_fy24", get_val_fmt data "pat_fy25",
    get_val_fmt data "pat_fy26", get_val_fmt data "pat_fy27",
    get_val_fmt data "pat_fy28"],
   ["YoY% growth",
    calc_growth pat_24 (dictGet data "pat_fy23"),
    calc_growth pat_25 pat_24,
    calc_growth pat_26 pat_25,
    calc_growth pat_27 pat_26,
    calc_growth pat_28 pat_27],
   ["P/E",
    get_val_fmt1 data "pe_fy24", get_val_fmt1 data "pe_fy25",
    get_val_fmt1 data "pe_fy26", get_val_fmt1 data "pe_fy27",
    get_val_fmt1 data "pe_fy28"],
   ["P/B",
    get_val_fmt1 data "pb_fy24", get_val_fmt1 data "pb_fy25",
    get_val_fmt1 data "pb_fy26", get_val_fmt1 data "pb_fy27",
    get_val_fmt1 data "pb_fy28"]]

/-! ## `calculate_font_size` (lines 588-606) -/

/-- Font size by text length, on the character count. -/
def calcFontSizeOfLen (text_len : ℕ) : ℚ :=
  if text_len < 500 then 12
  else if text_len < 1000 then 23 / 2
  else if text_len < 1500 then 11
  else if text_len < 2000 then 9
  else if text_len < 3000 then 8
  else 7

/-- Mirrors `calculate_font_size`: longer text gets a smaller font (the
`max_chars` parameter of the Python function is unused by its body). -/
def calculate_font_size (text : String) : ℚ :=
  calcFontSizeOfLen text.length

/-! ## `parse_markdown_table_to_data` (lines 383-413) -/

/-- Core of the pipe-table parser on character lists: drops separator lines
(containing `---`) and blank lines; splits each remaining line containing a
pipe on `|`, strips every cell, and then keeps only non-empty cells. -/
def parseTableCore (md : List Char) : List (List (List Char)) :=
  if md = [] then []
  else
    let lines := splitChar '\n' (pythonStrip md)
    lines.foldl
      (fun acc line =>
        if containsSub line ['-', '-', '-'] then acc
        else if pythonStrip line = [] then acc
        else if line.any (fun c => c = '|') then
          let row := (splitChar '|' line).map pythonStrip
          let row := row.filter (fun cell => cell ≠ [])
          if row ≠ [] then acc ++ [row] else acc
        else acc)
      []

/-- Mirrors `parse_markdown_table_to_data` at the string level. -/
def parse_markdown_table_to_data (markdown_text : String) : List (List String) :=
  (parseTableCore markdown_text.data).map (fun row => row.map (fun c => c.asString))

/-! ## Rich-text renderer
(`replace_shape_text` lines 159-224, `replace_paragraph_with_markdown`
lines 226-297, `find_and_replace_placeholder` lines 332-381) -/

/-- Paragraph alignment values (`PP_ALIGN`). -/
inductive PAlign where
  | left | center | right | justify
deriving DecidableEq, Repr

/-- A text run with the font attributes the generator sets. -/
structure Run where
  text : List Char
  size : Option ℚ
  fontName : Option String
  bold : Bool
  color : Option (ℕ × ℕ × ℕ)
deriving DecidableEq, Repr

/-- A paragraph: runs plus an optional explicit alignment. -/
structure Para where
  runs : List Run
  align : Option PAlign
deriving DecidableEq, Repr

/-- A text-bearing shape's text frame with the frame-level properties
`replace_shape_text` sets (margins in EMU). -/
structure TextFrame where
  paras : List Para
  wordWrap : Option Bool := Option.none
  autoSizeToFit : Bool := false
  marginTopEmu : Option ℤ := Option.none
  marginLeftEmu : Option ℤ := Option.none
  marginRightEmu : Option ℤ := Option.none
  marginBottomEmu : Option ℤ := Option.none
  anchorMiddle : Option Bool := Option.none
deriving DecidableEq, Repr

/-- Length of the maximal whitespace prefix (`\s*`, greedy). -/
def wsPrefixLen (l : List Char) : ℕ := (l.takeWhile isPyWs).length

/-- The character class `[-â€¢]` of the auto-bold heuristic: the dash plus
the three characters of the double-encoded bullet in the source file. -/
def dashClass : List Char := ['-', 'â', '€', '¢']

/-- Greedy capture `([^*:]+)` followed by a literal colon, at a fixed start
position: the run of non-star non-colon characters must be non-empty and be
followed immediately by `:`. -/
def capAttempt (rest3 : List Char) : Option (List Char) :=
  let run := rest3.takeWhile (fun c => c ≠ '*' ∧ c ≠ ':')
  if run ≠ [] ∧ (rest3.drop run.length).head? = some ':' then some run
  else Option.none

/-- Backtrack the inner `\s*` of the heuristic pattern from `j` characters
down to zero. -/
def tryW2 (rest2 : List Char) : ℕ → Option (List Char)
  | 0 => capAttempt rest2
  | j + 1 =>
      match capAttempt (rest2.drop (j + 1)) with
      | some r => some r
      | Option.none => tryW2 rest2 j

/-- The optional `[-â€¢]?` of the heuristic pattern: prefer consuming one
class character (greedy `?`), falling back to consuming none. -/
def tryDash (rest1 : List Char) : Option (List Char) :=
  let withDash :=
    match rest1 with
    | c :: r => if dashClass.contains c then tryW2 r (wsPrefixLen r) else Option.none
    | [] => Option.none
  match withDash with
  | some r => some r
  | Option.none => tryW2 rest1 (wsPrefixLen rest1)

/-- Backtrack the leading `\s*` of the heuristic pattern from `i` characters
down to zero. -/
def tryW1 (l : List Char) : ℕ → Option (List Char)
  | 0 => tryDash l
  | i + 1 =>
      match tryDash (l.drop (i + 1)) with
      | some r => some r
      | Option.none => tryW1 l i

/-- `re.match` of the auto-bold heuristic pattern `^\s*[-â€¢]?\s*([^*:]+):`
(line 236), returning the captured label on success.  Backtracking follows
the regex engine: the leading `\s*` and inner `\s*` are greedy and backtrack
rightmost-first; the capture cannot contain `:`, so for a fixed start it is
forced to the full non-star non-colon run. -/
def heuristicFind (l : List Char) : Option (List Char) :=
  tryW1 l (wsPrefixLen l)

/-- Lines 237-242: if the label heuristic matches, wrap the first occurrence
of `label:` in double-star bold markers. -/
def heuristicTransform (text_content : List Char) : List Char :=
  match heuristicFind text_content with
  | some label =>
      replaceFirst text_content (label ++ [':'])
        (['*', '*'] ++ label ++ [':', '*', '*'])
  | Option.none => text_content

/-- Earliest closing `**` for the lazy `\*\*.*?\*\*` alternative: the
capture before it may be empty and may not contain a newline. -/
def findDoubleStar : List Char → Option (List Char × List Char)
  | [] => Option.none
  | c :: r =>
      if c = '*' ∧ r.head? = some '*' then some ([], r.tail)
      else if c = '\n' then Option.none
      else (findDoubleStar r).map (fun p => (c :: p.1, p.2))

/-- Earliest closing `*` for the lazy `\*.*?\*` alternative. -/
def findSingleStar : List Char → Option (List Char × List Char)
  | [] => Option.none
  | c :: r =>
      if c = '*' then some ([], r)
      else if c = '\n' then Option.none
      else (findSingleStar r).map (fun p => (c :: p.1, p.2))

/-- Match of the split pattern `(\*\*.*?\*\*|\*.*?\*)` anchored at the head
of `l`: the double-star alternative applies when the next two characters are
stars and a closing pair follows; otherwise the single-star alternative is
tried.  Returns the matched text and the remainder. -/
def starMatchAt : List Char → Option (List Char × List Char)
  | [] => Option.none
  | c :: t =>
      if c = '*' then
        let dbl :=
          if t.head? = some '*' then
            (findDoubleStar t.tail).map
              (fun p => ('*' :: '*' :: (p.1 ++ ['*', '*']), p.2))
          else Option.none
        match dbl with
        | some r => some r
        | Option.none =>
            (findSingleStar t).map (fun p => ('*' :: (p.1 ++ ['*']), p.2))
      else Option.none

/-- Fuelled scanner for `re.split` with the capturing star pattern: emits the
interleaved list of literal pieces and matches (empty literal pieces
included, as `re.split` produces them).  Every step consumes at least one
character, so fuel equal to the input length suffices. -/
def partsGo : ℕ → List Char → List Char → List (List Char)
  | _, acc, [] => [acc.reverse]
  | 0, acc, l => [acc.reverse ++ l]
  | fuel + 1, acc, c :: r =>
      match starMatchAt (c :: r) with
      | some (m, rest) => acc.reverse :: m :: partsGo fuel [] rest
      | Option.none => partsGo fuel (c :: acc) r

/-- `re.split(r'(\*\*.*?\*\*|\*.*?\*)', text)` (line 246). -/
def scanParts (l : List Char) : List (List Char) := partsGo l.length [] l

/-- The body of the per-part loop (lines 248-283): empty parts are skipped;
star-wrapped parts are stripped of their markers and rendered bold; the
explicit `bold` parameter forces bold on every run; font size is applied
when truthy; the font name is always Calibri. -/
def partRun (font_size : Option ℚ) (bold : Bool) (color : Option (ℕ × ℕ × ℕ))
    (part : List Char) : Option Run :=
  if part = [] then Option.none
  else
    let is_double_star := listStartsWith ['*', '*'] part &&
      listEndsWith ['*', '*'] part && decide (4 < part.length)
    let is_single_star := listStartsWith ['*'] part &&
      listEndsWith ['*'] part && decide (2 < part.length)
    let is_marked_bold := is_double_star || is_single_star
    let run_text :=
      if is_double_star then ((part.drop 2).reverse.drop 2).reverse
      else if is_single_star then ((part.drop 1).reverse.drop 1).reverse
      else part
    some
      { text := run_text
        size := match font_size with
                | some q => if q = 0 then Option.none else some q
                | Option.none => Option.none
        fontName := some "Calibri"
        bold := if bold then true else is_marked_bold
        color := color }

/-- Alignment assignment of lines 285-297: a requested alignment string is
matched case-insensitively against the four names (an unrecognized non-empty
string leaves the paragraph's previous alignment); a missing or empty
alignment defaults to LEFT. -/
def alignOf (old : Option PAlign) (align : Option String) : Option PAlign :=
  match align with
  | some a =>
      if a = "" then some PAlign.left
      else if a.toUpper = "CENTER" then some PAlign.center
      else if a.toUpper = "LEFT" then some PAlign.left
      else if a.toUpper = "RIGHT" then some PAlign.right
      else if a.toUpper = "JUSTIFY" then some PAlign.justify
      else old
  | Option.none => some PAlign.left

/-- Mirrors `replace_paragraph_with_markdown` (lines 226-297): clears the
paragraph, applies the auto-bold heuristic, splits on the star pattern and
emits one run per non-empty part. -/
def replace_paragraph_with_markdown (paragraph : Para) (text_content : List Char)
    (font_size : Option ℚ) (bold : Bool) (align : Option String)
    (color : Option (ℕ × ℕ × ℕ)) : Para :=
  let tc := heuristicTransform text_content
  let parts := scanParts tc
  { runs := parts.filterMap (partRun font_size bold color)
    align := alignOf paragraph.align align }

/-- A fresh paragraph as created by `text_frame.add_paragraph()`. -/
def freshPara : Para := { runs := [], align := Option.none }

/-- Truthiness of the optional alignment string plus the CENTER test of
lines 180-183. -/
def isCenterAlign (align : Option String) : Bool :=
  match align with
  | some a => a ≠ "" && a.toUpper = "CENTER"
  | Option.none => false

/-- Mirrors `replace_shape_text` (lines 159-224): sets the frame properties,
removes every paragraph but the first, clears it, then renders one paragraph
per newline-delimited line of `new_text` (the first into the retained
paragraph, the rest into fresh ones). -/
def replace_shape_text (tf : TextFrame) (new_text : List Char)
    (font_size : Option ℚ) (bold : Bool) (align : Option String)
    (color : Option (ℕ × ℕ × ℕ)) : TextFrame :=
  let firstPara :=
    match tf.paras with
    | p :: _ => { p with runs := [] }
    | [] => freshPara
  let lines := splitChar '\n' new_text
  let paras :=
    match lines with
    | [] => []
    | l0 :: rest =>
        replace_paragraph_with_markdown firstPara l0 font_size bold align color ::
          rest.map (fun ln =>
            replace_paragraph_with_markdown freshPara ln font_size bold align color)
  { paras := paras
    wordWrap := some true
    autoSizeToFit := true
    marginTopEmu := some 228600
    marginLeftEmu := some 182880
    marginRightEmu := some 182880
    marginBottomEmu := some 91440
    anchorMiddle := some (isCenterAlign align) }

/-- Concatenated text of a paragraph's runs. -/
def paraText (p : Para) : List Char := (p.runs.map Run.text).flatten

/-- Concatenated text of all runs of a shape, as collected by the loops of
lines 347-350 (no separators between paragraphs). -/
def shapeText (tf : TextFrame) : List Char := (tf.paras.map paraText).flatten

/-- The literal token `\x7b\x7bname\x7d\x7d` (braces written escaped). -/
def placeholderPattern (name : String) : List Char :=
  '\x7b' :: '\x7b' :: (name.data ++ ['\x7d', '\x7d'])

/-- The per-shape body of `find_and_replace_placeholder` (lines 341-379):
skip the shape unless the token occurs in its concatenated run text; take
the whole-shape path when the whitespace-normalized text equals the token
(or the stripped text does); otherwise replace the token inside every
paragraph containing it and re-render those paragraphs.  Returns the updated
shape and the number of replacements counted. -/
def find_and_replace_in_shape (placeholder_name : String) (new_text : List Char)
    (font_size : Option ℚ) (bold : Bool) (align : Option String)
    (color : Option (ℕ × ℕ × ℕ)) (tf : TextFrame) : TextFrame × ℕ :=
  let pat := placeholderPattern placeholder_name
  let full_text := shapeText tf
  if ¬ containsSub full_text pat then (tf, 0)
  else
    let clean_full := cleanWs full_text
    let clean_placeholder := cleanWs pat
    if clean_full = clean_placeholder ∨ pythonStrip full_text = pat then
      (replace_shape_text tf new_text font_size bold align color, 1)
    else
      let step := fun (acc : List Para × ℕ) (para : Para) =>
        let current_para_text := paraText para
        if containsSub current_para_text pat then
          (acc.1 ++
            [replace_paragraph_with_markdown para
              (replaceAll current_para_text pat new_text) font_size bold align
              color],
           acc.2 + 1)
        else (acc.1 ++ [para], acc.2)
      let r := tf.paras.foldl step ([], 0)
      ({ tf with paras := r.1 }, r.2)


/-- Template fixture: a shape whose whole text is the token `x` wrapped in
double braces (written escaped), as a title placeholder would be. -/
def exactTokenShape : TextFrame :=
  { paras := [{ runs := [{ text := "\x7b\x7bx\x7d\x7d".data,
                           size := Option.none, fontName := Option.none,
                           bold := false, color := Option.none }],
                align := Option.none }] }

/-- Template fixture: a shape whose text is the token with a stray space
inside the braces, so its whitespace-normalized text equals the token but
its raw text does not contain it. -/
def mixedTokenShape : TextFrame :=
  { paras := [{ runs := [{ text := "\x7b\x7b x\x7d\x7d".data,
                           size := Option.none, fontName := Option.none,
                           bold := false, color := Option.none }],
                align := Option.none }] }

/-- Template fixture: a shape with the token embedded after a literal
`Label: ` prefix. -/
def labelTokenShape : TextFrame :=
  { paras := [{ runs := [{ text := "Label: \x7b\x7bx\x7d\x7d".data,
                           size := Option.none, fontName := Option.none,
                           bold := false, color := Option.none }],
                align := Option.none }] }

/-! ## Markdown normalizer (`parse_markdown_to_text`, lines 86-118)
Each regex substitution pass is embedded as a fuelled left-to-right scanner;
every step consumes at least one character, so fuel equal to the input
length suffices. -/

/-- Backtracking of the greedy `\s*` in the header pattern: the largest
prefix length `p` of the whitespace run such that a non-newline character
follows (so that `(.+)$` can match). -/
def headerFindP (rest : List Char) : ℕ → Option ℕ
  | 0 =>
      match rest.head? with
      | some c => if c ≠ '\n' then some 0 else Option.none
      | Option.none => Option.none
  | p + 1 =>
      match (rest.drop (p + 1)).head? with
      | some c => if c ≠ '\n' then some (p + 1) else headerFindP rest p
      | Option.none => headerFindP rest p

/-- Scanner for `re.sub(r'^#{1,6}\s*(.+)$', r'\1', text, flags=re.MULTILINE)`
(line 97): at a line start, one to six hashes (greedy), greedy whitespace
backtracked so the rest of some line is non-empty, replaced by that rest. -/
def headerGo : ℕ → Bool → List Char → List Char
  | _, _, [] => []
  | 0, _, l => l
  | fuel + 1, lineStart, c :: r =>
      if lineStart ∧ c = '#' then
        let hashes := (c :: r).takeWhile (fun x => x = '#')
        let h := min hashes.length 6
        let rest := (c :: r).drop h
        match headerFindP rest (rest.takeWhile isPyWs).length with
        | some p =>
            let cap := (rest.drop p).takeWhile (fun x => x ≠ '\n')
            cap ++ headerGo fuel false (rest.drop (p + cap.length))
        | Option.none => c :: headerGo fuel false r
      else c :: headerGo fuel (c = '\n') r

/-- Header-stripping pass. -/
def headerSub (l : List Char) : List Char := headerGo l.length true l

/-- Lazy search for the closing marker of `(?<!m)m(?!m)(.+?)(?<!m)m(?!m)`:
extend the capture (no newlines) until a marker not preceded or followed by
another marker is found. -/
def smAux (m : Char) (acc : List Char) (lastc : Char) :
    List Char → Option (List Char × List Char)
  | [] => Option.none
  | c :: rest =>
      if c = m ∧ lastc ≠ m ∧ rest.head? ≠ some m then some (acc.reverse, rest)
      else if c = '\n' then Option.none
      else smAux m (c :: acc) c rest

/-- Find the capture and remainder after an opening single marker. -/
def smFindClose (m : Char) : List Char → Option (List Char × List Char)
  | [] => Option.none
  | c :: rest => if c = '\n' then Option.none else smAux m [c] c rest

/-- Scanner for the single-marker emphasis pattern with lookarounds, used
for `*italic*` (line 104) and `_italic_` (line 106): the marker must not be
doubled on either side; on a match the markers are dropped and scanning
resumes after the closing marker (whose character is the new lookbehind). -/
def smGo (m : Char) : ℕ → Option Char → List Char → List Char
  | _, _, [] => []
  | 0, _, l => l
  | fuel + 1, prev, c :: rest =>
      if c = m ∧ prev ≠ some m ∧ rest.head? ≠ some m then
        match smFindClose m rest with
        | some (cap, rem) => cap ++ smGo m fuel (some m) rem
        | Option.none => c :: smGo m fuel (some c) rest
      else c :: smGo m fuel (some c) rest

/-- One single-marker substitution pass. -/
def singleMarkSub (m : Char) (l : List Char) : List Char :=
  smGo m l.length Option.none l

/-- First adjacent pair of underscores in the list (allowed at index 0),
with the newline-free prefix before it. -/
def fdcAux : List Char → Option (List Char × List Char)
  | [] => Option.none
  | c :: rest =>
      if c = '_' ∧ rest.head? = some '_' then some ([], rest.tail)
      else if c = '\n' then Option.none
      else (fdcAux rest).map (fun p => (c :: p.1, p.2))

/-- Lazy closing search for `__(.+?)__`: the capture must have at least one
character, so the closing pair is looked for from index one on. -/
def findDblUnderscore : List Char → Option (List Char × List Char)
  | [] => Option.none
  | c :: rest =>
      if c = '\n' then Option.none
      else (fdcAux rest).map (fun p => (c :: p.1, p.2))

/-- Scanner for `re.sub(r'__(.+?)__', r'\1', text)` (line 105). -/
def duGo : ℕ → List Char → List Char
  | _, [] => []
  | 0, l => l
  | fuel + 1, c :: rest =>
      if c = '_' ∧ rest.head? = some '_' then
        match findDblUnderscore rest.tail with
        | some (cap, rem) => cap ++ duGo fuel rem
        | Option.none => c :: duGo fuel rest
      else c :: duGo fuel rest

/-- Double-underscore bold-stripping pass. -/
def dunderSub (l : List Char) : List Char := duGo l.length l

/-- Match attempt for `\[([^\]]+)\]\([^\)]+\)` just after an opening
bracket: greedy non-bracket capture, a closing bracket, a parenthesised
non-empty URL. -/
def linkTryAt (t : List Char) : Option (List Char × List Char) :=
  let cap := t.takeWhile (fun c => c ≠ ']')
  if cap = [] then Option.none
  else
    match t.drop cap.length with
    | ']' :: '(' :: w =>
        let inner := w.takeWhile (fun c => c ≠ ')')
        if inner = [] then Option.none
        else
          match w.drop inner.length with
          | ')' :: rem => some (cap, rem)
          | _ => Option.none
    | _ => Option.none

/-- Scanner for the link-stripping substitution (line 109). -/
def linkGo : ℕ → List Char → List Char
  | _, [] => []
  | 0, l => l
  | fuel + 1, c :: rest =>
      if c = '[' then
        match linkTryAt rest with
        | some (cap, rem) => cap ++ linkGo fuel rem
        | Option.none => c :: linkGo fuel rest
      else c :: linkGo fuel rest

/-- Link-stripping pass. -/
def linkSub (l : List Char) : List Char := linkGo l.length l

/-- Scanner for `re.sub(r'\n{3,}', '\n\n', text)` (line 112): every maximal
newline run of length at least three becomes exactly two newlines. -/
def collGo : ℕ → List Char → List Char
  | _, [] => []
  | 0, l => l
  | fuel + 1, c :: rest =>
      if c = '\n' then
        let run := (c :: rest).takeWhile (fun x => x = '\n')
        if 3 ≤ run.length then
          '\n' :: '\n' :: collGo fuel ((c :: rest).drop run.length)
        else run ++ collGo fuel ((c :: rest).drop run.length)
      else c :: collGo fuel rest

/-- Blank-line collapsing pass. -/
def collapseNl (l : List Char) : List Char := collGo l.length l

/-- Mirrors the body of `parse_markdown_to_text` (lines 86-118): header
strip, italic strip, double-underscore strip, underscore-italic strip, link
strip, newline collapse, per-line strip, final strip.  Double-star bold
markers are deliberately not touched by any pass. -/
def parse_markdown_core (l : List Char) : List Char :=
  if l = [] then []
  else
    let t1 := headerSub l
    let t2 := singleMarkSub '*' t1
    let t3 := dunderSub t2
    let t4 := singleMarkSub '_' t3
    let t5 := linkSub t4
    let t6 := collapseNl t5
    let t7 := joinChar '\n' ((splitChar '\n' t6).map pythonStrip)
    pythonStrip t7

/-- Mirrors `parse_markdown_to_text` at the string level. -/
def parse_markdown_to_text (markdown_text : String) : String :=
  ⟨parse_markdown_core markdown_text.data⟩

/-! ## Enrichment loop of `populate_from_data` (lines 689-721)

The loop iterates over fiscal years 24-28; for each year it computes the
EBITDA margin, then for each of revenue, ebitda and pat the year-over-year
growth (with a `sales_growth` alias for revenue), assigning each derived
value into the same dictionary `data` in place. -/

/-- Fiscal-year key builder, Python `f-string` interpolation of
`base_fy` followed by the year. -/
def keyFy (base : String) (y : ℕ) : String := base ++ "_fy" ++ natToStr y

/-- The assignment list of one margin computation (lines 703-707), as a
function of the two parsed operands. -/
def marginWritesV (y : ℕ) (rev ebit : Option ℚ) : List (String × Val) :=
  match rev, ebit with
  | some r, some e =>
      if r ≠ 0 then
        [(keyFy "ebitda_margin" y, Val.str (fmtDot1 (e / r * 100)))]
      else []
  | _, _ => []

/-- The assignment list of one growth computation (lines 710-721), as a
function of the two parsed operands; for revenue the formatted growth is
also assigned under the `sales_growth` alias. -/
def growthWritesV (y : ℕ) (metric : String) (curr prev : Option ℚ) :
    List (String × Val) :=
  match curr, prev with
  | some c, some p =>
      if p ≠ 0 then
        (keyFy (metric ++ "_growth") y,
            Val.str (fmtDot1 ((c - p) / |p| * 100))) ::
          (if metric = "revenue" then
            [(keyFy "sales_growth" y, Val.str (fmtDot1 ((c - p) / |p| * 100)))]
          else [])
      else []
  | _, _ => []

/-- One pass of the enrichment loop body: a margin computation for a year,
or a growth computation for a year and metric. -/
inductive EStep where
  | margin (y : ℕ)
  | growth (y : ℕ) (metric : String)

/-- The keys a step looks up with `data.get`. -/
def stepReads : EStep → List String
  | EStep.margin y => [keyFy "revenue" y, keyFy "ebitda" y]
  | EStep.growth y m => [keyFy m y, keyFy m (y - 1)]

/-- The assignments a step performs, reading from `d`. -/
def stepWrites : EStep → Record → List (String × Val)
  | EStep.margin y, d =>
      marginWritesV y (p_float (dictGet d (keyFy "revenue" y)))
        (p_float (dictGet d (keyFy "ebitda" y)))
  | EStep.growth y m, d =>
      growthWritesV y m (p_float (dictGet d (keyFy m y)))
        (p_float (dictGet d (keyFy m (y - 1))))

/-- Perform a list of dictionary assignments in order. -/
def applyWrites (w : List (String × Val)) (d : Record) : Record :=
  w.foldl (fun d kv => dictSet d kv.1 kv.2) d

/-- Execute one loop step on the dictionary. -/
def doStep (s : EStep) (d : Record) : Record := applyWrites (stepWrites s d) d

/-- The loop body for one year: margin first, then growth for revenue,
ebitda and pat in order. -/
def yearProgram (y : ℕ) : List EStep :=
  [EStep.margin y, EStep.growth y "revenue", EStep.growth y "ebitda",
    EStep.growth y "pat"]

/-- The whole enrichment loop: years 24-28 in order. -/
def program : List EStep :=
  yearProgram 24 ++ yearProgram 25 ++ yearProgram 26 ++ yearProgram 27 ++
    yearProgram 28

/-- Run a list of steps in order on the dictionary. -/
def runProg (ps : List EStep) (d : Record) : Record :=
  ps.foldl (fun d s => doStep s d) d

/-- The enrichment phase of `populate_from_data` (lines 689-721), acting on
the caller's dictionary. -/
def enrichRecord (d : Record) : Record := runProg program d

/-- All assignments a step list would perform when every read is answered
from the same snapshot `d`. -/
def progWrites : List EStep → Record → List (String × Val)
  | [], _ => []
  | s :: ps, d => stepWrites s d ++ progWrites ps d

/-- The base-metric keys the enrichment loop reads: revenue, ebitda and pat
for fiscal years 23-28. -/
def readKeys : List String :=
  [23, 24, 25, 26, 27, 28].flatMap fun y =>
    [keyFy "revenue" y, keyFy "ebitda" y, keyFy "pat" y]

/-- The keys a step may assign. -/
def stepWriteKeys : EStep → List String
  | EStep.margin y => [keyFy "ebitda_margin" y]
  | EStep.growth y m =>
      keyFy (m ++ "_growth") y ::
        (if m = "revenue" then [keyFy "sales_growth" y] else [])

/-- The keys a step list may assign, in program order. -/
def staticKeys : List EStep → List String
  | [] => []
  | s :: ps => stepWriteKeys s ++ staticKeys ps

/-- All derived keys the enrichment loop may create. -/
def derivedKeys : List String := staticKeys program

/-! ## Image placement (`download_image` lines 120-134,
`add_image_to_slide` lines 517-554, fixed-image loop lines 1107-1167)

The document is a list of slides, each a list of placed pictures; the
network is an oracle from URL values to optionally fetched images. -/

/-- Position dictionary of a slot (inches); height may be absent. -/
structure Pos where
  left : ℚ
  top : ℚ
  width : ℚ
  height : Option ℚ

/-- Crop-percentage dictionary of a slot. -/
structure CropSpec where
  left : ℚ
  right : ℚ
  top : ℚ
  bottom : ℚ

/-- A picture added to a slide by `add_picture` plus crop assignment. -/
structure PlacedPic (Img : Type) where
  img : Img
  pos : Pos
  crop : Option CropSpec

/-- One entry of the `fixed_images` configuration dict. -/
structure ImgSlot where
  name : String
  url : Option Val
  slide : ℕ
  pos : Pos
  crop : Option CropSpec

/-- The guard `url and url not in ("[null]", "null", None, "")` of the
placement loop (line 1144), with Python truthiness for the possible
value shapes. -/
def urlPresent : Option Val → Bool
  | Option.none => false
  | some Val.null => false
  | some (Val.str s) =>
      if s = "" ∨ s = "[null]" ∨ s = "null" then false else true
  | some (Val.num q) => if q = 0 then false else true

/-- `download_image` (lines 120-134): re-checks the missing-URL guard, then
consults the network oracle (a failed request degrades to `none`). -/
def download_image {Img : Type} (fetch : Val → Option Img)
    (url : Option Val) : Option Img :=
  if urlPresent url then
    match url with
    | some v => fetch v
    | Option.none => Option.none
  else Option.none

/-- `add_image_to_slide` (lines 517-554): out-of-range slide indices fail;
otherwise the picture is appended to the slide's shapes and cropped. -/
def add_image_to_slide {Img : Type} (doc : List (List (PlacedPic Img)))
    (slide_idx : ℕ) (img : Img) (pos : Pos) (crop : Option CropSpec) :
    List (List (PlacedPic Img)) × Bool :=
  if doc.length ≤ slide_idx then (doc, false)
  else (doc.set slide_idx (doc.getD slide_idx [] ++ [⟨img, pos, crop⟩]), true)

/-- Python `results[name] = b` on the result map. -/
def resSet : List (String × Bool) → String → Bool → List (String × Bool)
  | [], key, b => [(key, b)]
  | (k, v) :: r, key, b =>
      if k = key then (key, b) :: r else (k, v) :: resSet r key b

/-- One iteration of the fixed-image loop (lines 1142-1166): a present URL
is downloaded and placed (recording the placement outcome); a missing URL
or failed download records `false` and leaves the document alone. -/
def processSlot {Img : Type} (fetch : Val → Option Img)
    (doc : List (List (PlacedPic Img))) (res : List (String × Bool))
    (slot : ImgSlot) : List (List (PlacedPic Img)) × List (String × Bool) :=
  if urlPresent slot.url then
    match download_image fetch slot.url with
    | some img =>
        let r := add_image_to_slide doc slot.slide img slot.pos slot.crop
        (r.1, resSet res slot.name r.2)
    | Option.none => (doc, resSet res slot.name false)
  else (doc, resSet res slot.name false)

/-- The fixed-image loop over a slot list. -/
def processSlots {Img : Type} (fetch : Val → Option Img)
    (slots : List ImgSlot) (doc : List (List (PlacedPic Img)))
    (res : List (String × Bool)) :
    List (List (PlacedPic Img)) × List (String × Bool) :=
  slots.foldl (fun p s => processSlot fetch p.1 p.2 s) (doc, res)

/-- The `fixed_images` configuration (lines 1107-1140): four slots with
their URLs from the record, slide indices, inch positions and, for the
summary table, crop percentages. -/
def fixedImages (data : Record) : List ImgSlot :=
  [{ name := "chart_custom", url := dictGet data "chart_custom",
     slide := 10,
     pos := { left := 0.5, top := 0.75, width := 9.0, height := some 4.5 },
     crop := Option.none },
   { name := "price_chart_slide2", url := dictGet data "price_chart",
     slide := 1,
     pos := { left := 5.0, top := 0.75, width := 4.83, height := some 2.0 },
     crop := Option.none },
   { name := "financial_table_slide2", url := dictGet data "financial_table",
     slide := 1,
     pos := { left := 5.07, top := 2.81, width := 4.72, height := some 2.06 },
     crop := Option.none },
   { name := "summary_table_slide10", url := dictGet data "summary_table",
     slide := 9,
     pos := { left := 0.60, top := 0.68, width := 8.34, height := some 4.80 },
     crop := some { left := 0.0, right := 0.030, top := 0.133,
                    bottom := 0.089 } }]

/-! # Theorems -/


/-- A prefix test certifies an append decomposition. -/
theorem lsw_eq_append (pat : List Char) :
    ∀ l : List Char, listStartsWith pat l = true → l = pat ++ l.drop pat.length := by
  induction pat with
  | nil => intro l _; simp
  | cons p ps ih =>
    intro l h
    cases l with
    | nil => simp [listStartsWith] at h
    | cons c r =>
      simp only [listStartsWith, Bool.and_eq_true, decide_eq_true_eq] at h
      obtain ⟨rfl, h2⟩ := h
      simpa using ih r h2

/-- A starts-with test on the empty list forces an empty pattern. -/
theorem lsw_nil {pat : List Char} (h : listStartsWith pat [] = true) : pat = [] := by
  cases pat with
  | nil => rfl
  | cons p ps => simp [listStartsWith] at h

/-- `splitOnce` certifies its decomposition. -/
theorem splitOnce_eq {pat : List Char} :
    ∀ {l a b : List Char}, splitOnce pat l = some (a, b) → l = a ++ pat ++ b := by
  intro l
  induction l with
  | nil =>
    intro a b h
    simp only [splitOnce] at h
    split at h
    · obtain ⟨rfl, rfl⟩ : [] = a ∧ [] = b := by
        simpa [eq_comm] using h
      have := lsw_nil (by assumption)
      simp [this]
    · exact absurd h (by simp)
  | cons c r ih =>
    intro a b h
    simp only [splitOnce] at h
    split at h
    · rename_i hsw
      obtain ⟨rfl, rfl⟩ : [] = a ∧ (c :: r).drop pat.length = b := by
        simpa [eq_comm] using h
      simpa using lsw_eq_append pat (c :: r) hsw
    · rcases Option.map_eq_some'.mp h with ⟨⟨a', b'⟩, hsp, hab⟩
      obtain ⟨rfl, rfl⟩ : c :: a' = a ∧ b' = b := by simpa [eq_comm] using hab
      simp [ih hsp]

/-- Splitting never yields an empty piece list. -/
theorem splitChar_ne_nil (sep : Char) (l : List Char) : splitChar sep l ≠ [] := by
  cases l with
  | nil => simp [splitChar]
  | cons c r =>
    simp only [splitChar]
    rcases h : splitChar sep r with _ | ⟨h0, t⟩ <;> split_ifs <;> simp

/-- Every character of a piece of `splitChar` comes from the input and is
not the separator. -/
theorem splitChar_mem {sep : Char} :
    ∀ {l ln : List Char}, ln ∈ splitChar sep l → ∀ c ∈ ln, c ∈ l ∧ c ≠ sep := by
  intro l
  induction l with
  | nil =>
    intro ln h c hc
    simp [splitChar] at h
    subst h
    simp at hc
  | cons c0 r ih =>
    intro ln h c hc
    simp only [splitChar] at h
    rcases h' : splitChar sep r with _ | ⟨h0, t⟩
    · exact absurd h' (splitChar_ne_nil sep r)
    · rw [h'] at h
      split_ifs at h with hs
      · rcases List.mem_cons.mp h with rfl | hmem
        · simp at hc
        · have := ih (by rw [h']; exact hmem) c hc
          exact ⟨List.mem_cons_of_mem _ this.1, this.2⟩
      · rcases List.mem_cons.mp h with rfl | hmem
        · rcases List.mem_cons.mp hc with rfl | hc'
          · exact ⟨List.mem_cons_self _ _, hs⟩
          · have := ih (show h0 ∈ splitChar sep r by rw [h']; simp) c hc'
            exact ⟨List.mem_cons_of_mem _ this.1, this.2⟩
        · have := ih (show ln ∈ splitChar sep r by rw [h']; simp [hmem]) c hc
          exact ⟨List.mem_cons_of_mem _ this.1, this.2⟩

/-- Reapplying the alignment rule is stable, whatever the previous value. -/
theorem alignOf_idem (old : Option PAlign) (ap : Option String) :
    alignOf (alignOf old ap) ap = alignOf old ap := by
  cases ap with
  | none => rfl
  | some a =>
    simp only [alignOf]
    split_ifs <;> rfl

/-- The double-star finder locates the first closing pair after a star-free,
newline-free capture. -/
theorem fds_prefix (bb : List Char) :
    ∀ m : List Char, (∀ c ∈ m, c ≠ '*') → (∀ c ∈ m, c ≠ '\n') →
      findDoubleStar (m ++ '*' :: '*' :: bb) = some (m, bb) := by
  intro m
  induction m with
  | nil => intro _ _; simp [findDoubleStar]
  | cons c m' ih =>
    intro h1 h2
    have hc : c ≠ '*' := h1 c (List.mem_cons_self _ _)
    have hn : c ≠ '\n' := h2 c (List.mem_cons_self _ _)
    have ih' := ih (fun x hx => h1 x (List.mem_cons_of_mem _ hx))
      (fun x hx => h2 x (List.mem_cons_of_mem _ hx))
    simp [findDoubleStar, hc, hn, ih']

/-- No match of the star pattern can start at a non-star character. -/
theorem sma_nostar (c : Char) (r : List Char) (h : c ≠ '*') :
    starMatchAt (c :: r) = Option.none := by
  simp [starMatchAt, h]

/-- On star-free input the split scanner yields a single literal piece. -/
theorem partsGo_nostar :
    ∀ (l acc : List Char) (f : ℕ), l.length ≤ f → (∀ c ∈ l, c ≠ '*') →
      partsGo f acc l = [acc.reverse ++ l] := by
  intro l
  induction l with
  | nil => intro acc f _ _; cases f <;> simp [partsGo]
  | cons c r ih =>
    intro acc f hf h
    cases f with
    | zero => simp at hf
    | succ f' =>
      have hc : c ≠ '*' := h c (List.mem_cons_self _ _)
      simp only [partsGo, sma_nostar c r hc]
      rw [ih (c :: acc) f' (by simpa using hf)
        (fun x hx => h x (List.mem_cons_of_mem _ hx))]
      simp

/-- On input of the shape `literal ++ ** capture ** ++ literal` with
star-free literals and a star-free newline-free capture, the split scanner
yields exactly the two literal pieces around the double-star match. -/
theorem partsGo_dbl (m bb : List Char) (hm1 : ∀ c ∈ m, c ≠ '*')
    (hm2 : ∀ c ∈ m, c ≠ '\n') (hb : ∀ c ∈ bb, c ≠ '*') :
    ∀ (a acc : List Char) (f : ℕ),
      (a ++ '*' :: '*' :: (m ++ '*' :: '*' :: bb)).length ≤ f →
      (∀ c ∈ a, c ≠ '*') →
      partsGo f acc (a ++ '*' :: '*' :: (m ++ '*' :: '*' :: bb)) =
        [acc.reverse ++ a, '*' :: '*' :: (m ++ ['*', '*']), bb] := by
  intro a
  induction a with
  | nil =>
    intro acc f hf _
    cases f with
    | zero => simp at hf
    | succ f' =>
      have hsma : starMatchAt ('*' :: '*' :: (m ++ '*' :: '*' :: bb)) =
          some ('*' :: '*' :: (m ++ ['*', '*']), bb) := by
        simp [starMatchAt, fds_prefix bb m hm1 hm2]
      simp only [List.nil_append, partsGo, hsma]
      rw [partsGo_nostar bb [] f' (by simp at hf; omega) hb]
      simp
  | cons c a' ih =>
    intro acc f hf h
    cases f with
    | zero => simp at hf
    | succ f' =>
      have hc : c ≠ '*' := h c (List.mem_cons_self _ _)
      simp only [List.cons_append, partsGo, sma_nostar c _ hc, List.append_eq]
      rw [ih (c :: acc) f' (by simpa using hf)
        (fun x hx => h x (List.mem_cons_of_mem _ hx))]
      simp

/-- The rendered text of one part: a star-free part renders as itself (an
empty part renders nothing). -/
theorem partRun_text_plain (fs : Option ℚ) (b : Bool)
    (col : Option (ℕ × ℕ × ℕ)) (part : List Char)
    (h : ∀ c ∈ part, c ≠ '*') :
    ((partRun fs b col part).map Run.text).getD [] = part := by
  rcases part with _ | ⟨c, r⟩
  · simp [partRun]
  · have hc : ('*' : Char) ≠ c := Ne.symm (h c (List.mem_cons_self _ _))
    simp [partRun, listStartsWith, hc]

/-- The rendered text of a double-star match part is its capture, and the
run is bold. -/
theorem partRun_dbl (fs : Option ℚ) (b : Bool) (col : Option (ℕ × ℕ × ℕ))
    (m : List Char) (hm : m ≠ []) :
    ∃ rn, partRun fs b col ('*' :: '*' :: (m ++ ['*', '*'])) = some rn ∧
      rn.text = m ∧ rn.bold = true := by
  have h2 : listEndsWith ['*', '*'] ('*' :: '*' :: (m ++ ['*', '*'])) = true := by
    simp [listEndsWith, List.reverse_append, listStartsWith]
  have h3 : 4 < ('*' :: '*' :: (m ++ ['*', '*'])).length := by
    have := List.length_pos.mpr hm
    simp only [List.length_cons, List.length_append]
    omega
  refine ⟨{ text := m,
            size := match fs with
                    | some q => if q = 0 then Option.none else some q
                    | Option.none => Option.none,
            fontName := some "Calibri", bold := true, color := col }, ?_, rfl, rfl⟩
  have hp := List.length_pos.mpr hm
  simp [partRun, listStartsWith, h2, h3, List.reverse_append,
    List.reverse_reverse, hm, hp]

/-- A non-empty part whose head is not a star renders as one plain run with
the bold flag equal to the explicit parameter. -/
theorem partRun_plain (fs : Option ℚ) (b : Bool) (col : Option (ℕ × ℕ × ℕ))
    (c : Char) (r : List Char) (hc : ('*' : Char) ≠ c) :
    partRun fs b col (c :: r) =
      some { text := c :: r,
             size := match fs with
                     | some q => if q = 0 then Option.none else some q
                     | Option.none => Option.none,
             fontName := some "Calibri",
             bold := b,
             color := col } := by
  cases b <;> simp [partRun, listStartsWith, hc]

/-- The flattened text of the rendered runs is the flattened per-part text. -/
theorem runsText_parts (fs : Option ℚ) (b : Bool) (col : Option (ℕ × ℕ × ℕ)) :
    ∀ parts : List (List Char),
      ((parts.filterMap (partRun fs b col)).map Run.text).flatten =
        (parts.map
          (fun part => ((partRun fs b col part).map Run.text).getD [])).flatten := by
  intro parts
  induction parts with
  | nil => rfl
  | cons p ps ih =>
    simp only [List.filterMap_cons, List.map_cons, List.flatten_cons]
    cases h : partRun fs b col p <;> simp [h, ih]

/-- Rendering a star-free text yields exactly its characters back. -/
theorem renderText_nostar (tc : List Char) (fs : Option ℚ) (b : Bool)
    (col : Option (ℕ × ℕ × ℕ)) (h : ∀ c ∈ tc, c ≠ '*') :
    (((scanParts tc).filterMap (partRun fs b col)).map Run.text).flatten = tc := by
  rw [show scanParts tc = [tc] by
    simpa using partsGo_nostar tc [] tc.length le_rfl h]
  rcases tc with _ | ⟨c, r⟩
  · simp [partRun]
  · have hc : ('*' : Char) ≠ c := Ne.symm (h c (List.mem_cons_self _ _))
    simp [partRun, listStartsWith, hc]

/-- A star-free line that does not trigger the label heuristic renders as one
plain run (zero runs when the line is empty), with the bold flag equal to
the explicit parameter. -/
theorem rpm_plain (p : Para) (ln : List Char) (fs : Option ℚ) (b : Bool)
    (al : Option String) (col : Option (ℕ × ℕ × ℕ))
    (hstar : ∀ c ∈ ln, c ≠ '*') (hheur : heuristicFind ln = Option.none) :
    ((replace_paragraph_with_markdown p ln fs b al col).runs.length =
       if ln = [] then 0 else 1) ∧
    ∀ rn ∈ (replace_paragraph_with_markdown p ln fs b al col).runs,
      rn.bold = b := by
  have ht : heuristicTransform ln = ln := by simp [heuristicTransform, hheur]
  have hsp : scanParts ln = [ln] := by
    simpa using partsGo_nostar ln [] ln.length le_rfl hstar
  simp only [replace_paragraph_with_markdown, ht, hsp]
  rcases ln with _ | ⟨c, r⟩
  · simp [partRun]
  · have hc : ('*' : Char) ≠ c := Ne.symm (hstar c (List.mem_cons_self _ _))
    rw [List.filterMap_cons, partRun_plain fs b col c r hc]
    constructor
    · simp
    · intro rn hrn
      simp at hrn
      rw [hrn]

/-- Rendering a star-free, newline-free line through the markdown paragraph
renderer preserves its text exactly (the heuristic only moves a label into a
bold run). -/
theorem rpm_text (p : Para) (ln : List Char) (fs : Option ℚ) (b : Bool)
    (al : Option String) (col : Option (ℕ × ℕ × ℕ))
    (hstar : ∀ c ∈ ln, c ≠ '*') (hnl : ∀ c ∈ ln, c ≠ '\n') :
    paraText (replace_paragraph_with_markdown p ln fs b al col) = ln := by
  rcases hh : heuristicFind ln with _ | lbl
  · have ht : heuristicTransform ln = ln := by simp [heuristicTransform, hh]
    simp only [paraText, replace_paragraph_with_markdown, ht]
    exact renderText_nostar ln fs b col hstar
  · simp only [paraText, replace_paragraph_with_markdown, heuristicTransform, hh]
    rcases hsp : splitOnce (lbl ++ [':']) ln with _ | ⟨a, bb⟩
    · simp only [replaceFirst, hsp]
      exact renderText_nostar ln fs b col hstar
    · have hdecomp : ln = a ++ (lbl ++ [':']) ++ bb := splitOnce_eq hsp
      have ha : ∀ c ∈ a, c ≠ '*' := fun c hc => hstar c (by rw [hdecomp]; simp [hc])
      have hbb : ∀ c ∈ bb, c ≠ '*' := fun c hc => hstar c (by rw [hdecomp]; simp [hc])
      have hm1 : ∀ c ∈ lbl ++ [':'], c ≠ '*' := by
        intro c hc
        rcases List.mem_append.mp hc with h' | h'
        · exact hstar c (by rw [hdecomp]; simp [h'])
        · simp at h'; subst h'; decide
      have hm2 : ∀ c ∈ lbl ++ [':'], c ≠ '\n' := by
        intro c hc
        rcases List.mem_append.mp hc with h' | h'
        · exact hnl c (by rw [hdecomp]; simp [h'])
        · simp at h'; subst h'; decide
      simp only [replaceFirst, hsp]
      have hshape : a ++ (['*', '*'] ++ lbl ++ [':', '*', '*']) ++ bb =
          a ++ '*' :: '*' :: ((lbl ++ [':']) ++ '*' :: '*' :: bb) := by simp
      rw [hshape]
      have hparts : scanParts (a ++ '*' :: '*' :: ((lbl ++ [':']) ++ '*' :: '*' :: bb)) =
          [a, '*' :: '*' :: ((lbl ++ [':']) ++ ['*', '*']), bb] := by
        have h0 := partsGo_dbl (lbl ++ [':']) bb hm1 hm2 hbb a [] _ le_rfl ha
        simpa only [scanParts, List.reverse_nil, List.nil_append] using h0
      rw [hparts, runsText_parts]
      obtain ⟨rn, hrn, hrtext, _⟩ := partRun_dbl fs b col (lbl ++ [':']) (by simp)
      have hrn' : partRun fs b col ('*' :: '*' :: (lbl ++ [':', '*', '*'])) =
          some rn := by
        simpa only [List.append_assoc, List.cons_append, List.nil_append] using hrn
      simp only [List.map_cons, List.map_nil, List.flatten_cons, List.flatten_nil]
      rw [partRun_text_plain fs b col a ha, partRun_text_plain fs b col bb hbb]
      simp only [List.append_assoc, List.cons_append, List.nil_append]
      rw [hrn']
      simp only [Option.map_some', Option.getD_some, hrtext, hdecomp]
      simp

/-- C8: rendering is idempotent — calling `replace_shape_text` twice with the
same replacement value and formatting yields exactly the frame produced by
one call — and the final paragraph count equals the number of
newline-delimited lines of the replacement text. -/
theorem c8_render_idempotent (tf : TextFrame) (v : List Char) (fs : Option ℚ)
    (b : Bool) (al : Option String) (col : Option (ℕ × ℕ × ℕ)) :
    replace_shape_text (replace_shape_text tf v fs b al col) v fs b al col =
      replace_shape_text tf v fs b al col ∧
    (replace_shape_text tf v fs b al col).paras.length =
      (splitChar '\n' v).length := by
  rcases hl : splitChar '\n' v with _ | ⟨l0, rest⟩
  · exact absurd hl (splitChar_ne_nil '\n' v)
  · constructor
    · simp only [replace_shape_text, hl, replace_paragraph_with_markdown,
        alignOf_idem]
    · simp [replace_shape_text, hl]

/-- Rounding an integer-valued rational is the identity. -/
theorem roundHalfEven_intCast (n : ℤ) : roundHalfEven ((n : ℤ) : ℚ) = n := by
  unfold roundHalfEven ratFloor
  rw [Rat.num_intCast, Rat.den_intCast]
  norm_num [Int.fdiv_one]

/-- Evaluation rule for the one-decimal formatter when the scaled value is a
known integer. -/
theorem fmtDot1_eq_of (q : ℚ) (n : ℤ) (h : q * 10 = (n : ℚ)) :
    fmtDot1 q =
      (if n < 0 then "-" else "") ++ natToStr (n.natAbs / 10) ++ "." ++
        natToStr (n.natAbs % 10) := by
  unfold fmtDot1
  rw [h, roundHalfEven_intCast]

/-- Monotonicity of the length-to-size table. -/
theorem calcFontSizeOfLen_anti (m n : ℕ) (h : m ≤ n) :
    calcFontSizeOfLen n ≤ calcFontSizeOfLen m := by
  unfold calcFontSizeOfLen
  split_ifs <;> try norm_num
  all_goals omega

/-- C10: `calculate_font_size` is monotonically non-increasing in the length
of its text argument, and its result always lies in the finite set
12.0, 11.5, 11.0, 9.0, 8.0, 7.0 (hence is bounded between 7 and 12 points). -/
theorem c10_font_size_monotone_bounded :
    (∀ s t : String, s.length ≤ t.length →
       calculate_font_size t ≤ calculate_font_size s) ∧
    (∀ s : String,
       calculate_font_size s ∈ ([12, 23 / 2, 11, 9, 8, 7] : List ℚ)) ∧
    (∀ s : String, 7 ≤ calculate_font_size s ∧ calculate_font_size s ≤ 12) := by
  refine ⟨fun s t h => calcFontSizeOfLen_anti s.length t.length h, ?_, ?_⟩
  · intro s
    unfold calculate_font_size calcFontSizeOfLen
    split_ifs <;> simp
  · intro s
    unfold calculate_font_size calcFontSizeOfLen
    split_ifs <;> constructor <;> norm_num

/-- Witness for C10 at a concrete pair of strings. -/
theorem c10_font_size_witness :
    calculate_font_size "longer" ≤ calculate_font_size "abc" ∧
      calculate_font_size "abc" ∈ ([12, 23 / 2, 11, 9, 8, 7] : List ℚ) :=
  ⟨c10_font_size_monotone_bounded.1 "abc" "longer" (by decide),
   c10_font_size_monotone_bounded.2.1 "abc"⟩

/-- C5: the YoY growth cell equals `(current - previous) / abs(previous) * 100`
formatted to one decimal place whenever both tolerant parses succeed and the
previous value is non-zero, and equals `"-"` otherwise; in particular
FY24=100, FY25=110 yields `"10.0"` in the grid, and previous = 0 yields `"-"`. -/
theorem c5_growth_spec :
    (∀ (cur prev : Option Val) (c p : ℚ),
       safe_float cur = some c → safe_float prev = some p → p ≠ 0 →
       calc_growth cur prev = fmtDot1 ((c - p) / |p| * 100)) ∧
    (∀ cur prev, safe_float cur = Option.none ∨ safe_float prev = Option.none ∨
       safe_float prev = some 0 → calc_growth cur prev = "-") ∧
    ((buildFinancialTable
        [("revenue_fy24", Val.num 100), ("revenue_fy25", Val.num 110)]).getD 2
        []).getD 2 "" = "10.0" ∧
    ((buildFinancialTable
        [("revenue_fy24", Val.num 0), ("revenue_fy25", Val.num 110)]).getD 2
        []).getD 2 "" = "-" := by
  refine ⟨?_, ?_, ?_, ?_⟩
  · intro cur prev c p hc hp hne
    unfold calc_growth
    rw [hc, hp]
    simp [hne]
  · intro cur prev h
    unfold calc_growth
    rcases h with h | h | h
    · rw [h]
    · rw [h]; cases hc : safe_float cur <;> rfl
    · rw [h]
      cases hc : safe_float cur
      · rfl
      · simp
  · show (if (100 : ℚ) ≠ 0 then
        fmtDot1 (((110 : ℚ) - 100) / |(100 : ℚ)| * 100) else "-") = "10.0"
    rw [if_pos (by norm_num), fmtDot1_eq_of _ 100 (by norm_num)]
    decide
  · show (if (0 : ℚ) ≠ 0 then
        fmtDot1 (((110 : ℚ) - 0) / |(0 : ℚ)| * 100) else "-") = "-"
    rw [if_neg (by norm_num)]

/-- Witness for C5 applying the growth formula at concrete parsed values. -/
theorem c5_growth_spec_witness :
    calc_growth (some (Val.num 110)) (some (Val.num 100)) =
      fmtDot1 ((110 - 100) / |(100 : ℚ)| * 100) :=
  c5_growth_spec.1 _ _ 110 100 rfl rfl (by norm_num)

/-- C1 (counterexample): the synthesized grid does not have 8 rows — it has a
header row plus nine data rows, 10 in total. -/
theorem c1_grid_rows_counterexample :
    (buildFinancialTable []).length = 10 ∧ (buildFinancialTable []).length ≠ 8 := by
  decide

/-- C1 (amended): the grid built when no markdown table is supplied has
exactly 10 rows (one header row plus nine data rows: Sales, YoY%, EBITDA,
Margin%, YoY%, PAT, YoY%, P/E, P/B) and every row has 6 cells (label plus 5
fiscal years); for every record, a direct-value cell whose source value is
missing degrades to the `"-"` sentinel, as does a growth or margin cell
with a missing operand, and every non-label cell of every data row is one
of these four cell forms (the builder is total, so no error is
possible). -/
theorem c1_grid_shape_amended (data : Record) (row : List String)
    (hrow : row ∈ buildFinancialTable data) :
    (buildFinancialTable data).length = 10 ∧ row.length = 6 ∧
    (∀ key, safe_float (dictGet data key) = Option.none →
      get_val_fmt data key = "-" ∧ get_val_fmt1 data key = "-") ∧
    (∀ cur prev,
      safe_float cur = Option.none ∨ safe_float prev = Option.none →
      calc_growth cur prev = "-" ∧ calc_margin cur prev = "-") ∧
    (row ∈ (buildFinancialTable data).drop 1 → ∀ c ∈ row.drop 1,
      (∃ key, c = get_val_fmt data key) ∨
      (∃ key, c = get_val_fmt1 data key) ∨
      (∃ cur prev, c = calc_growth cur prev) ∨
      (∃ cur prev, c = calc_margin cur prev)) := by
  refine ⟨rfl, ?_, ?_, ?_, ?_⟩
  · simp only [buildFinancialTable, List.mem_cons, List.not_mem_nil, or_false]
      at hrow
    rcases hrow with rfl | rfl | rfl | rfl | rfl | rfl | rfl | rfl | rfl | rfl <;>
      rfl
  · intro key h
    exact ⟨by simp [get_val_fmt, h], by simp [get_val_fmt1, h]⟩
  · intro cur prev h
    rcases h with h | h
    · exact ⟨by simp [calc_growth, h], by simp [calc_margin, h]⟩
    · rcases hc : safe_float cur with _ | q
      · exact ⟨by simp [calc_growth, hc], by simp [calc_margin, hc]⟩
      · exact ⟨by simp [calc_growth, hc, h], by simp [calc_margin, hc, h]⟩
  · intro hmem c hc
    simp only [buildFinancialTable, List.drop_succ_cons, List.drop_zero,
      List.mem_cons, List.not_mem_nil, or_false] at hmem
    rcases hmem with rfl | rfl | rfl | rfl | rfl | rfl | rfl | rfl | rfl <;>
      simp only [List.drop_succ_cons, List.drop_zero, List.mem_cons,
        List.not_mem_nil, or_false] at hc <;>
      rcases hc with rfl | rfl | rfl | rfl | rfl <;>
        first
          | exact Or.inl ⟨_, rfl⟩
          | exact Or.inr (Or.inl ⟨_, rfl⟩)
          | exact Or.inr (Or.inr (Or.inl ⟨_, _, rfl⟩))
          | exact Or.inr (Or.inr (Or.inr ⟨_, _, rfl⟩))

/-- Witness for C1's amended statement at the empty record and its Sales
row. -/
theorem c1_grid_shape_amended_witness :
    (buildFinancialTable []).length = 10 ∧
    (["Sales", "-", "-", "-", "-", "-"] : List String).length = 6 ∧
    (∀ key, safe_float (dictGet [] key) = Option.none →
      get_val_fmt [] key = "-" ∧ get_val_fmt1 [] key = "-") ∧
    (∀ cur prev,
      safe_float cur = Option.none ∨ safe_float prev = Option.none →
      calc_growth cur prev = "-" ∧ calc_margin cur prev = "-") ∧
    (["Sales", "-", "-", "-", "-", "-"] ∈ (buildFinancialTable []).drop 1 →
      ∀ c ∈ (["Sales", "-", "-", "-", "-", "-"] : List String).drop 1,
        (∃ key, c = get_val_fmt [] key) ∨
        (∃ key, c = get_val_fmt1 [] key) ∨
        (∃ cur prev, c = calc_growth cur prev) ∨
        (∃ cur prev, c = calc_margin cur prev)) :=
  c1_grid_shape_amended [] ["Sales", "-", "-", "-", "-", "-"] (by decide)

/-- C4: evaluating the pipe-table parser at the failing input — the interior
empty cell of `| a |  | b |` is dropped by the cell filter, yielding
`[["a", "b"]]` instead of keeping the row aligned as `[["a", "", "b"]]`. -/
theorem c4_interior_cell_dropped :
    parse_markdown_table_to_data "| a |  | b |" = [["a", "b"]] ∧
      parse_markdown_table_to_data "| a |  | b |" ≠ [["a", "", "b"]] := by
  decide

/-- C6 (counterexample): the replacement value `"Note: hi"` contains no
emphasis markers, yet rendering it produces two runs, one of them bold — the
label-colon auto-bold heuristic fires. -/
theorem c6_label_heuristic_counterexample :
    ((replace_shape_text { paras := [] } "Note: hi".data (some 12) false
        Option.none Option.none).paras.map (fun p => p.runs.length)) = [2] ∧
    ((replace_shape_text { paras := [] } "Note: hi".data (some 12) false
        Option.none Option.none).paras.map
        (fun p => (p.runs.filter (fun rn => rn.bold)).length)) = [1] := by
  decide

/-- C6 (amended): for every replacement value containing no emphasis markers
and no line matching the label-colon heuristic pattern, rendering a shape
with it (explicit bold off) produces exactly one text run per non-empty line
(zero for an empty line) and zero runs with bold set to true. -/
theorem c6_plain_runs_amended (tf : TextFrame) (v : List Char) (fs : Option ℚ)
    (al : Option String) (col : Option (ℕ × ℕ × ℕ))
    (hstar : ∀ c ∈ v, c ≠ '*')
    (hheur : ∀ ln ∈ splitChar '\n' v, heuristicFind ln = Option.none) :
    ((replace_shape_text tf v fs false al col).paras.map
        (fun p => p.runs.length) =
      (splitChar '\n' v).map (fun ln => if ln = [] then 0 else 1)) ∧
    ∀ p ∈ (replace_shape_text tf v fs false al col).paras,
      ∀ rn ∈ p.runs, rn.bold = false := by
  have hlnstar : ∀ ln ∈ splitChar '\n' v, ∀ c ∈ ln, c ≠ '*' :=
    fun ln hln c hc => hstar c (splitChar_mem hln c hc).1
  rcases hl : splitChar '\n' v with _ | ⟨l0, rest⟩
  · exact absurd hl (splitChar_ne_nil '\n' v)
  have hmem0 : l0 ∈ splitChar '\n' v := by rw [hl]; exact List.mem_cons_self _ _
  constructor
  · simp only [replace_shape_text, hl, List.map_cons, List.map_map,
      List.cons.injEq]
    constructor
    · exact (rpm_plain _ l0 fs false al col (hlnstar l0 hmem0) (hheur l0 hmem0)).1
    · refine List.map_congr_left (fun ln hln => ?_)
      have hmem : ln ∈ splitChar '\n' v := by
        rw [hl]; exact List.mem_cons_of_mem _ hln
      exact (rpm_plain freshPara ln fs false al col (hlnstar ln hmem)
        (hheur ln hmem)).1
  · intro p hp rn hrn
    simp only [replace_shape_text, hl] at hp
    rcases List.mem_cons.mp hp with rfl | hp'
    · exact (rpm_plain _ l0 fs false al col (hlnstar l0 hmem0)
        (hheur l0 hmem0)).2 rn hrn
    · rcases List.mem_map.mp hp' with ⟨ln, hln, rfl⟩
      have hmem : ln ∈ splitChar '\n' v := by
        rw [hl]; exact List.mem_cons_of_mem _ hln
      exact (rpm_plain freshPara ln fs false al col (hlnstar ln hmem)
        (hheur ln hmem)).2 rn hrn

/-- Witness for C6's amended statement on a concrete two-line value. -/
theorem c6_plain_runs_amended_witness :
    ((replace_shape_text { paras := [] } "hello\nworld".data (some 11) false
        Option.none Option.none).paras.map (fun p => p.runs.length) =
      (splitChar '\n' "hello\nworld".data).map
        (fun ln => if ln = [] then 0 else 1)) ∧
    ∀ p ∈ (replace_shape_text { paras := [] } "hello\nworld".data (some 11)
        false Option.none Option.none).paras,
      ∀ rn ∈ p.runs, rn.bold = false :=
  c6_plain_runs_amended { paras := [] } "hello\nworld".data (some 11)
    Option.none Option.none (by decide) (by decide)

/-- C7 (counterexample): a shape whose concatenated run text, after removing
all whitespace, equals the token pattern is nevertheless skipped (neither
path taken, zero replacements) when the raw text does not literally contain
the token — here the shape text has a space inside the braces. -/
theorem c7_whitespace_inside_token_counterexample :
    cleanWs (shapeText mixedTokenShape) = cleanWs (placeholderPattern "x") ∧
    (find_and_replace_in_shape "x" "v".data (some 12) false Option.none
        Option.none mixedTokenShape).2 = 0 ∧
    (find_and_replace_in_shape "x" "v".data (some 12) false Option.none
        Option.none mixedTokenShape).1 = mixedTokenShape := by
  decide

/-- C7 (amended): a shape whose concatenated run text literally contains the
token and, after removing all whitespace, equals the token pattern takes the
whole-shape rendering path (`replace_shape_text`, counted once); a shape
containing the token embedded in other text (such as `Label: ` before the
token) takes the inline path, which replaces only the token substring and
preserves the surrounding literal text, for any star-free newline-free
replacement value. -/
theorem c7_path_selection_amended :
    (∀ (tf : TextFrame) (name : String) (v : List Char) (fs : Option ℚ)
       (b : Bool) (al : Option String) (col : Option (ℕ × ℕ × ℕ)),
       containsSub (shapeText tf) (placeholderPattern name) = true →
       cleanWs (shapeText tf) = cleanWs (placeholderPattern name) →
       find_and_replace_in_shape name v fs b al col tf =
         (replace_shape_text tf v fs b al col, 1)) ∧
    (∀ (v : List Char) (fs : Option ℚ) (b : Bool) (col : Option (ℕ × ℕ × ℕ)),
       (∀ c ∈ v, c ≠ '*') → (∀ c ∈ v, c ≠ '\n') →
       (find_and_replace_in_shape "x" v fs b Option.none col
           labelTokenShape).2 = 1 ∧
       (find_and_replace_in_shape "x" v fs b Option.none col
           labelTokenShape).1.paras.map paraText = ["Label: ".data ++ v]) := by
  constructor
  · intro tf name v fs b al col hcont hclean
    simp [find_and_replace_in_shape, hcont, hclean]
  · intro v fs b col hstar hnl
    constructor
    · rfl
    · show List.map paraText
        [replace_paragraph_with_markdown
          { runs := [{ text := "Label: \x7b\x7bx\x7d\x7d".data,
                       size := Option.none, fontName := Option.none,
                       bold := false, color := Option.none }],
            align := Option.none }
          ("Label: ".data ++ (v ++ [])) fs b Option.none col] =
        ["Label: ".data ++ v]
      have hstar' : ∀ c ∈ "Label: ".data ++ (v ++ []), c ≠ '*' := by
        intro c hc
        simp only [List.append_nil, List.mem_append] at hc
        rcases hc with hc | hc
        · exact (by decide : ∀ x ∈ "Label: ".data, x ≠ '*') c hc
        · exact hstar c hc
      have hnl' : ∀ c ∈ "Label: ".data ++ (v ++ []), c ≠ '\n' := by
        intro c hc
        simp only [List.append_nil, List.mem_append] at hc
        rcases hc with hc | hc
        · exact (by decide : ∀ x ∈ "Label: ".data, x ≠ '\n') c hc
        · exact hnl c hc
      rw [List.map_cons, List.map_nil,
        rpm_text _ _ fs b Option.none col hstar' hnl']
      simp

/-- Witness for C7 at a whole-token shape and the `Label: ` shape with the
concrete replacement `BUY`. -/
theorem c7_path_selection_amended_witness :
    (find_and_replace_in_shape "x" "v".data (some 12) false Option.none
        Option.none exactTokenShape =
      (replace_shape_text exactTokenShape "v".data (some 12) false Option.none
        Option.none, 1)) ∧
    (find_and_replace_in_shape "x" "BUY".data (some 12) false Option.none
        Option.none labelTokenShape).2 = 1 ∧
    (find_and_replace_in_shape "x" "BUY".data (some 12) false Option.none
        Option.none labelTokenShape).1.paras.map paraText =
      ["Label: BUY".data] := by
  have h2 := c7_path_selection_amended.2 "BUY".data (some 12) false Option.none
    (by decide) (by decide)
  refine ⟨c7_path_selection_amended.1 exactTokenShape "x" "v".data (some 12)
    false Option.none Option.none (by decide) (by decide), h2.1, ?_⟩
  rw [h2.2]
  decide

/-- The header pass leaves hash-free text unchanged. -/
theorem headerGo_id :
    ∀ (l : List Char) (fuel : ℕ) (ls : Bool), l.length ≤ fuel →
      (∀ c ∈ l, c ≠ '#') → headerGo fuel ls l = l := by
  intro l
  induction l with
  | nil => intro fuel ls _ _; cases fuel <;> rfl
  | cons c r ih =>
    intro fuel ls hf h
    cases fuel with
    | zero => simp at hf
    | succ f =>
      have hc : c ≠ '#' := h c (List.mem_cons_self _ _)
      simp only [headerGo]
      rw [if_neg (by simp [hc])]
      rw [ih f (c = '\n') (by simpa using hf)
        (fun x hx => h x (List.mem_cons_of_mem _ hx))]

/-- The single-marker pass leaves marker-free text unchanged. -/
theorem smGo_id (m : Char) :
    ∀ (l : List Char) (fuel : ℕ) (prev : Option Char), l.length ≤ fuel →
      (∀ c ∈ l, c ≠ m) → smGo m fuel prev l = l := by
  intro l
  induction l with
  | nil => intro fuel prev _ _; cases fuel <;> rfl
  | cons c r ih =>
    intro fuel prev hf h
    cases fuel with
    | zero => simp at hf
    | succ f =>
      have hc : c ≠ m := h c (List.mem_cons_self _ _)
      simp only [smGo]
      rw [if_neg (by simp [hc])]
      rw [ih f (some c) (by simpa using hf)
        (fun x hx => h x (List.mem_cons_of_mem _ hx))]

/-- The lazy closing search walks a marker-free newline-free capture up to
the single closing marker. -/
theorem smAux_close (m : Char) :
    ∀ (s acc : List Char) (lastc : Char), lastc ≠ m →
      (∀ c ∈ s, c ≠ m ∧ c ≠ '\n') →
      smAux m acc lastc (s ++ [m]) = some (acc.reverse ++ s, []) := by
  intro s
  induction s with
  | nil => intro acc lastc hl _; simp [smAux, hl]
  | cons c s' ih =>
    intro acc lastc hl h
    have hc := h c (List.mem_cons_self _ _)
    simp only [List.cons_append, List.append_eq, smAux]
    rw [if_neg (by simp [hc.1]), if_neg hc.2]
    rw [ih (c :: acc) c hc.1 (fun x hx => h x (List.mem_cons_of_mem _ hx))]
    simp

/-- The single-marker pass strips a simple `m text m` wrap. -/
theorem smGo_strip (m : Char) (s : List Char) (fuel : ℕ)
    (hf : s.length + 2 ≤ fuel) (hne : s ≠ [])
    (h : ∀ c ∈ s, c ≠ m ∧ c ≠ '\n') :
    smGo m fuel Option.none (m :: s ++ [m]) = s := by
  cases fuel with
  | zero => simp at hf
  | succ f =>
    rcases s with _ | ⟨s0, s'⟩
    · exact absurd rfl hne
    have h0 := h s0 (List.mem_cons_self _ _)
    have hcl : smFindClose m (s0 :: (s' ++ [m])) = some (s0 :: s', []) := by
      simp only [smFindClose]
      rw [if_neg h0.2]
      rw [smAux_close m s' [s0] s0 h0.1
        (fun x hx => h x (List.mem_cons_of_mem _ hx))]
      simp
    simp only [List.cons_append, List.append_eq, smGo]
    rw [if_pos ⟨trivial, by simp, by simp [h0.1]⟩, hcl]
    simp [smGo]

/-- The single-marker pass walks over a marker-free block followed by a
doubled marker without matching. -/
theorem smGo_walk_dd (m : Char) :
    ∀ (s : List Char) (fuel : ℕ) (prev : Option Char), s.length + 2 ≤ fuel →
      (∀ c ∈ s, c ≠ m) → smGo m fuel prev (s ++ [m, m]) = s ++ [m, m] := by
  intro s
  induction s with
  | nil =>
    intro fuel prev hf _
    cases fuel with
    | zero => simp at hf
    | succ f =>
      simp only [List.nil_append, smGo]
      rw [if_neg (by simp)]
      cases f with
      | zero => simp at hf
      | succ f' =>
        simp only [smGo]
        rw [if_neg (by simp)]
  | cons c s' ih =>
    intro fuel prev hf h
    cases fuel with
    | zero => simp at hf
    | succ f =>
      have hc : c ≠ m := h c (List.mem_cons_self _ _)
      simp only [List.cons_append, List.append_eq, smGo]
      rw [if_neg (by simp [hc])]
      rw [ih f (some c) (by simp at hf ⊢; omega)
        (fun x hx => h x (List.mem_cons_of_mem _ hx))]

/-- The single-marker pass keeps a double-marker wrap intact: the lookaheads
and lookbehinds veto every candidate opening. -/
theorem singleMark_keep_dbl (m : Char) (s : List Char)
    (h : ∀ c ∈ s, c ≠ m) :
    singleMarkSub m (m :: m :: (s ++ [m, m])) = m :: m :: (s ++ [m, m]) := by
  unfold singleMarkSub
  have hlen : (m :: m :: (s ++ [m, m])).length = s.length + 4 := by simp
  rw [hlen]
  simp only [smGo]
  rw [if_neg (by simp)]
  rw [if_neg (by simp)]
  rw [smGo_walk_dd m s (s.length + 2) (some m) le_rfl h]

/-- The double-underscore pass leaves underscore-free text unchanged. -/
theorem duGo_id :
    ∀ (l : List Char) (fuel : ℕ), l.length ≤ fuel →
      (∀ c ∈ l, c ≠ '_') → duGo fuel l = l := by
  intro l
  induction l with
  | nil => intro fuel _ _; cases fuel <;> rfl
  | cons c r ih =>
    intro fuel hf h
    cases fuel with
    | zero => simp at hf
    | succ f =>
      have hc : c ≠ '_' := h c (List.mem_cons_self _ _)
      simp only [duGo]
      rw [if_neg (by simp [hc])]
      rw [ih f (by simpa using hf)
        (fun x hx => h x (List.mem_cons_of_mem _ hx))]

/-- The pair finder walks an underscore-free newline-free block up to the
closing pair. -/
theorem fdcAux_close :
    ∀ s : List Char, (∀ c ∈ s, c ≠ '_' ∧ c ≠ '\n') →
      fdcAux (s ++ ['_', '_']) = some (s, []) := by
  intro s
  induction s with
  | nil => simp [fdcAux]
  | cons c s' ih =>
    intro h
    have hc := h c (List.mem_cons_self _ _)
    simp only [List.cons_append, List.append_eq, fdcAux]
    rw [if_neg (by simp [hc.1]), if_neg hc.2]
    rw [ih (fun x hx => h x (List.mem_cons_of_mem _ hx))]
    rfl

/-- The double-underscore pass strips a `__text__` wrap. -/
theorem dunder_strip (s : List Char) (hne : s ≠ [])
    (h : ∀ c ∈ s, c ≠ '_' ∧ c ≠ '\n') :
    dunderSub ('_' :: '_' :: (s ++ ['_', '_'])) = s := by
  unfold dunderSub
  have hlen : ('_' :: '_' :: (s ++ ['_', '_'])).length = s.length + 4 := by simp
  rw [hlen]
  rcases s with _ | ⟨s0, s'⟩
  · exact absurd rfl hne
  have h0 := h s0 (List.mem_cons_self _ _)
  have hfd : findDblUnderscore (s0 :: (s' ++ ['_', '_'])) = some (s0 :: s', []) := by
    simp only [findDblUnderscore]
    rw [if_neg h0.2]
    rw [fdcAux_close s' (fun x hx => h x (List.mem_cons_of_mem _ hx))]
    rfl
  simp only [List.cons_append, List.append_eq, duGo]
  rw [if_pos ⟨trivial, by simp⟩]
  simp only [List.tail_cons]
  rw [hfd]
  simp [duGo]

/-- The double-underscore pass walks an underscore-free block followed by
one trailing underscore without matching. -/
theorem duGo_keep_single :
    ∀ (s : List Char) (fuel : ℕ), s.length + 1 ≤ fuel →
      (∀ c ∈ s, c ≠ '_') → duGo fuel (s ++ ['_']) = s ++ ['_'] := by
  intro s
  induction s with
  | nil =>
    intro fuel hf _
    cases fuel with
    | zero => simp at hf
    | succ f =>
      simp only [List.nil_append, duGo]
      rw [if_neg (by simp)]
  | cons c s' ih =>
    intro fuel hf h
    cases fuel with
    | zero => simp at hf
    | succ f =>
      have hc : c ≠ '_' := h c (List.mem_cons_self _ _)
      simp only [List.cons_append, List.append_eq, duGo]
      rw [if_neg (by simp [hc])]
      rw [ih f (by simp at hf ⊢; omega)
        (fun x hx => h x (List.mem_cons_of_mem _ hx))]

/-- The double-underscore pass keeps a single-underscore wrap intact. -/
theorem dunder_keep_single (s : List Char) (hne : s ≠ [])
    (h : ∀ c ∈ s, c ≠ '_') :
    dunderSub ('_' :: (s ++ ['_'])) = '_' :: (s ++ ['_']) := by
  unfold dunderSub
  have hlen : ('_' :: (s ++ ['_'])).length = s.length + 2 := by simp
  rw [hlen]
  rcases s with _ | ⟨s0, s'⟩
  · exact absurd rfl hne
  have h0 : s0 ≠ '_' := h s0 (List.mem_cons_self _ _)
  simp only [duGo, List.cons_append, List.append_eq]
  rw [duGo_keep_single s' (s0 :: s').length (by simp)
    (fun x hx => h x (List.mem_cons_of_mem _ hx))]
  simp [h0]

/-- The link pass leaves bracket-free text unchanged. -/
theorem linkGo_id :
    ∀ (l : List Char) (fuel : ℕ), l.length ≤ fuel →
      (∀ c ∈ l, c ≠ '[') → linkGo fuel l = l := by
  intro l
  induction l with
  | nil => intro fuel _ _; cases fuel <;> rfl
  | cons c r ih =>
    intro fuel hf h
    cases fuel with
    | zero => simp at hf
    | succ f =>
      have hc : c ≠ '[' := h c (List.mem_cons_self _ _)
      simp only [linkGo]
      rw [if_neg hc]
      rw [ih f (by simpa using hf)
        (fun x hx => h x (List.mem_cons_of_mem _ hx))]

/-- The newline-collapsing pass leaves newline-free text unchanged. -/
theorem collGo_id :
    ∀ (l : List Char) (fuel : ℕ), l.length ≤ fuel →
      (∀ c ∈ l, c ≠ '\n') → collGo fuel l = l := by
  intro l
  induction l with
  | nil => intro fuel _ _; cases fuel <;> rfl
  | cons c r ih =>
    intro fuel hf h
    cases fuel with
    | zero => simp at hf
    | succ f =>
      have hc : c ≠ '\n' := h c (List.mem_cons_self _ _)
      simp only [collGo]
      rw [if_neg hc]
      rw [ih f (by simpa using hf)
        (fun x hx => h x (List.mem_cons_of_mem _ hx))]

/-- Splitting on an absent separator keeps the list whole. -/
theorem splitChar_nosep (sep : Char) :
    ∀ l : List Char, (∀ c ∈ l, c ≠ sep) → splitChar sep l = [l] := by
  intro l
  induction l with
  | nil => intro _; rfl
  | cons c r ih =>
    intro h
    have hc : c ≠ sep := h c (List.mem_cons_self _ _)
    simp only [splitChar]
    rw [ih (fun x hx => h x (List.mem_cons_of_mem _ hx))]
    simp [hc]

/-- Dropping a failing predicate from the front is the identity. -/
theorem dropWhile_no (p : Char → Bool) :
    ∀ l : List Char, (∀ c ∈ l, p c = false) → l.dropWhile p = l := by
  intro l h
  cases l with
  | nil => rfl
  | cons c r => simp [List.dropWhile_cons, h c (List.mem_cons_self _ _)]

/-- Stripping whitespace from whitespace-free text is the identity. -/
theorem pythonStrip_id (l : List Char) (h : ∀ c ∈ l, isPyWs c = false) :
    pythonStrip l = l := by
  unfold pythonStrip
  rw [dropWhile_no isPyWs l h, dropWhile_no isPyWs l.reverse
    (fun c hc => h c (List.mem_reverse.mp hc))]
  exact List.reverse_reverse l

/-- The per-line strip and rejoin of the normalizer is the identity on
whitespace-free text. -/
theorem stripJoin_id (l : List Char) (h : ∀ c ∈ l, isPyWs c = false) :
    pythonStrip (joinChar '\n' ((splitChar '\n' l).map pythonStrip)) = l := by
  have hn : ∀ c ∈ l, c ≠ '\n' := by
    intro c hc e
    subst e
    have := h '\n' hc
    simp [isPyWs] at this
  rw [splitChar_nosep '\n' l hn]
  simp only [List.map_cons, List.map_nil]
  rw [pythonStrip_id l h]
  exact pythonStrip_id l h

/-- Wrapper: header pass identity. -/
theorem headerSub_id (l : List Char) (h : ∀ c ∈ l, c ≠ '#') :
    headerSub l = l := headerGo_id l l.length true le_rfl h

/-- Wrapper: single-marker pass identity. -/
theorem singleMarkSub_id (m : Char) (l : List Char) (h : ∀ c ∈ l, c ≠ m) :
    singleMarkSub m l = l := smGo_id m l l.length Option.none le_rfl h

/-- Wrapper: single-marker pass strips one wrap. -/
theorem singleMarkSub_strip (m : Char) (s : List Char) (hne : s ≠ [])
    (h : ∀ c ∈ s, c ≠ m ∧ c ≠ '\n') :
    singleMarkSub m (m :: (s ++ [m])) = s :=
  smGo_strip m s (m :: (s ++ [m])).length (by simp) hne h

/-- Wrapper: double-underscore pass identity. -/
theorem dunderSub_id (l : List Char) (h : ∀ c ∈ l, c ≠ '_') :
    dunderSub l = l := duGo_id l l.length le_rfl h

/-- Wrapper: link pass identity. -/
theorem linkSub_id (l : List Char) (h : ∀ c ∈ l, c ≠ '[') :
    linkSub l = l := linkGo_id l l.length le_rfl h

/-- Wrapper: newline-collapse pass identity. -/
theorem collapseNl_id (l : List Char) (h : ∀ c ∈ l, c ≠ '\n') :
    collapseNl l = l := collGo_id l l.length le_rfl h

/-- Characters of a wrapped list satisfy a predicate that holds on the
wrappers and the core. -/
theorem mem_sandwich (P : Char → Prop) (pre post s : List Char)
    (hpre : ∀ c ∈ pre, P c) (hpost : ∀ c ∈ post, P c)
    (hs : ∀ c ∈ s, P c) : ∀ c ∈ pre ++ (s ++ post), P c := by
  intro c hc
  rcases List.mem_append.mp hc with h | h
  · exact hpre c h
  · rcases List.mem_append.mp h with h | h
    · exact hs c h
    · exact hpost c h

/-- C3 (counterexample): the normalizer strips single-star italic markers,
so it does not leave all four emphasis forms unchanged. -/
theorem c3_emphasis_counterexample :
    parse_markdown_to_text "*x*" = "x" ∧
      parse_markdown_to_text "*x*" ≠ "*x*" := by
  decide

/-- C3 (amended): for non-empty marker-free inner text (no stars,
underscores, hashes, brackets or whitespace characters), the normalizer
preserves double-star bold markers unchanged, while it strips the
single-star, double-underscore and single-underscore markers, keeping
only the inner text. -/
theorem c3_emphasis_amended (s : List Char) (hne : s ≠ [])
    (hclean : ∀ c ∈ s, c ≠ '*' ∧ c ≠ '_' ∧ c ≠ '#' ∧ c ≠ '[' ∧
      isPyWs c = false) :
    parse_markdown_core ('*' :: '*' :: (s ++ ['*', '*'])) =
      '*' :: '*' :: (s ++ ['*', '*']) ∧
    parse_markdown_core ('*' :: (s ++ ['*'])) = s ∧
    parse_markdown_core ('_' :: '_' :: (s ++ ['_', '_'])) = s ∧
    parse_markdown_core ('_' :: (s ++ ['_'])) = s := by
  have hstar : ∀ c ∈ s, c ≠ '*' := fun c hc => (hclean c hc).1
  have hund : ∀ c ∈ s, c ≠ '_' := fun c hc => (hclean c hc).2.1
  have hhash : ∀ c ∈ s, c ≠ '#' := fun c hc => (hclean c hc).2.2.1
  have hbrk : ∀ c ∈ s, c ≠ '[' := fun c hc => (hclean c hc).2.2.2.1
  have hws : ∀ c ∈ s, isPyWs c = false := fun c hc => (hclean c hc).2.2.2.2
  have hnl : ∀ c ∈ s, c ≠ '\n' := fun c hc e => by
    subst e; exact absurd (hws _ hc) (by decide)
  have hsm : ∀ c ∈ s, c ≠ '_' ∧ c ≠ '\n' := fun c hc => ⟨hund c hc, hnl c hc⟩
  have hsm' : ∀ c ∈ s, c ≠ '*' ∧ c ≠ '\n' := fun c hc => ⟨hstar c hc, hnl c hc⟩
  refine ⟨?_, ?_, ?_, ?_⟩
  · simp only [parse_markdown_core]
    rw [if_neg (by simp)]
    rw [headerSub_id ('*' :: '*' :: (s ++ ['*', '*']))
      (mem_sandwich _ ['*', '*'] ['*', '*'] s (by decide) (by decide) hhash)]
    rw [singleMark_keep_dbl '*' s hstar]
    rw [dunderSub_id ('*' :: '*' :: (s ++ ['*', '*']))
      (mem_sandwich _ ['*', '*'] ['*', '*'] s (by decide) (by decide) hund)]
    rw [singleMarkSub_id '_' ('*' :: '*' :: (s ++ ['*', '*']))
      (mem_sandwich _ ['*', '*'] ['*', '*'] s (by decide) (by decide) hund)]
    rw [linkSub_id ('*' :: '*' :: (s ++ ['*', '*']))
      (mem_sandwich _ ['*', '*'] ['*', '*'] s (by decide) (by decide) hbrk)]
    rw [collapseNl_id ('*' :: '*' :: (s ++ ['*', '*']))
      (mem_sandwich _ ['*', '*'] ['*', '*'] s (by decide) (by decide) hnl)]
    exact stripJoin_id ('*' :: '*' :: (s ++ ['*', '*']))
      (mem_sandwich _ ['*', '*'] ['*', '*'] s (by decide) (by decide) hws)
  · simp only [parse_markdown_core]
    rw [if_neg (by simp)]
    rw [headerSub_id ('*' :: (s ++ ['*']))
      (mem_sandwich _ ['*'] ['*'] s (by decide) (by decide) hhash)]
    rw [singleMarkSub_strip '*' s hne hsm']
    rw [dunderSub_id s hund, singleMarkSub_id '_' s hund, linkSub_id s hbrk,
      collapseNl_id s hnl]
    exact stripJoin_id s hws
  · simp only [parse_markdown_core]
    rw [if_neg (by simp)]
    rw [headerSub_id ('_' :: '_' :: (s ++ ['_', '_']))
      (mem_sandwich _ ['_', '_'] ['_', '_'] s (by decide) (by decide) hhash)]
    rw [singleMarkSub_id '*' ('_' :: '_' :: (s ++ ['_', '_']))
      (mem_sandwich _ ['_', '_'] ['_', '_'] s (by decide) (by decide) hstar)]
    rw [dunder_strip s hne hsm]
    rw [singleMarkSub_id '_' s hund, linkSub_id s hbrk, collapseNl_id s hnl]
    exact stripJoin_id s hws
  · simp only [parse_markdown_core]
    rw [if_neg (by simp)]
    rw [headerSub_id ('_' :: (s ++ ['_']))
      (mem_sandwich _ ['_'] ['_'] s (by decide) (by decide) hhash)]
    rw [singleMarkSub_id '*' ('_' :: (s ++ ['_']))
      (mem_sandwich _ ['_'] ['_'] s (by decide) (by decide) hstar)]
    rw [dunder_keep_single s hne hund]
    rw [singleMarkSub_strip '_' s hne hsm]
    rw [linkSub_id s hbrk, collapseNl_id s hnl]
    exact stripJoin_id s hws

/-- Witness for the amended C3 statement at the inner text `ab`. -/
theorem c3_emphasis_amended_witness :
    parse_markdown_core ('*' :: '*' :: ("ab".data ++ ['*', '*'])) =
      '*' :: '*' :: ("ab".data ++ ['*', '*']) ∧
    parse_markdown_core ('*' :: ("ab".data ++ ['*'])) = "ab".data ∧
    parse_markdown_core ('_' :: '_' :: ("ab".data ++ ['_', '_'])) = "ab".data ∧
    parse_markdown_core ('_' :: ("ab".data ++ ['_'])) = "ab".data :=
  c3_emphasis_amended "ab".data (by decide) (by decide)

/-- Lookup after setting the same key yields the new value. -/
theorem dictGet_set_self (d : Record) (k : String) (v : Val) :
    dictGet (dictSet d k v) k = some v := by
  induction d with
  | nil => simp [dictSet, dictGet]
  | cons kv r ih =>
    obtain ⟨k0, w⟩ := kv
    by_cases h : k0 = k
    · subst h
      simp [dictSet, dictGet]
    · simp [dictSet, dictGet, h, ih]

/-- Lookup after setting a different key is unchanged. -/
theorem dictGet_set_ne (d : Record) (k : String) (v : Val) (k' : String)
    (h : k' ≠ k) : dictGet (dictSet d k v) k' = dictGet d k' := by
  induction d with
  | nil => simp [dictSet, dictGet, Ne.symm h]
  | cons kv r ih =>
    obtain ⟨k0, w⟩ := kv
    by_cases h0 : k0 = k
    · subst h0
      simp [dictSet, dictGet, Ne.symm h]
    · simp [dictSet, dictGet, h0, ih]

/-- Setting a key to the value it already holds leaves the dictionary
unchanged (including binding order). -/
theorem dictSet_get_eq (d : Record) (k : String) (v : Val)
    (h : dictGet d k = some v) : dictSet d k v = d := by
  induction d with
  | nil => simp [dictGet] at h
  | cons kv r ih =>
    obtain ⟨k0, w⟩ := kv
    by_cases h0 : k0 = k
    · subst h0
      have hw : w = v := by simpa [dictGet] using h
      simp [dictSet, hw]
    · simp only [dictGet, if_neg h0] at h
      simp [dictSet, h0, ih h]

/-- Assignment lists compose by concatenation. -/
theorem applyWrites_append (w1 w2 : List (String × Val)) (d : Record) :
    applyWrites (w1 ++ w2) d = applyWrites w2 (applyWrites w1 d) := by
  simp [applyWrites]

/-- Keys not assigned by a write list keep their values. -/
theorem applyWrites_get_notin (w : List (String × Val)) (d : Record)
    (k : String) (h : ∀ p ∈ w, p.1 ≠ k) :
    dictGet (applyWrites w d) k = dictGet d k := by
  induction w generalizing d with
  | nil => rfl
  | cons p w' ih =>
    show dictGet (applyWrites w' (dictSet d p.1 p.2)) k = dictGet d k
    rw [ih _ (fun q hq => h q (List.mem_cons_of_mem _ hq)),
      dictGet_set_ne d p.1 p.2 k (Ne.symm (h p (List.mem_cons_self _ _)))]

/-- Replaying a write list with pairwise distinct keys is a no-op. -/
theorem applyWrites_idem (w : List (String × Val)) (d : Record)
    (hnd : (w.map Prod.fst).Nodup) :
    applyWrites w (applyWrites w d) = applyWrites w d := by
  induction w generalizing d with
  | nil => rfl
  | cons p w' ih =>
    rw [List.map_cons] at hnd
    obtain ⟨h1, h2⟩ := List.nodup_cons.mp hnd
    have hni : ∀ q ∈ w', q.1 ≠ p.1 := fun q hq e =>
      h1 (e ▸ List.mem_map_of_mem Prod.fst hq)
    show applyWrites w'
        (dictSet (applyWrites w' (dictSet d p.1 p.2)) p.1 p.2) =
      applyWrites w' (dictSet d p.1 p.2)
    have hget : dictGet (applyWrites w' (dictSet d p.1 p.2)) p.1 = some p.2 := by
      rw [applyWrites_get_notin w' _ p.1 hni, dictGet_set_self]
    rw [dictSet_get_eq _ p.1 p.2 hget]
    exact ih (dictSet d p.1 p.2) h2

/-- A step's assignments depend on the dictionary only through the keys it
reads. -/
theorem stepWrites_congr (s : EStep) (d d' : Record)
    (h : ∀ k ∈ stepReads s, dictGet d' k = dictGet d k) :
    stepWrites s d' = stepWrites s d := by
  cases s with
  | margin y =>
    simp only [stepWrites,
      h (keyFy "revenue" y) (by simp [stepReads]),
      h (keyFy "ebitda" y) (by simp [stepReads])]
  | growth y m =>
    simp only [stepWrites,
      h (keyFy m y) (by simp [stepReads]),
      h (keyFy m (y - 1)) (by simp [stepReads])]

/-- A program's snapshot assignments depend on the dictionary only through
the base keys, provided every step reads only base keys. -/
theorem progWrites_congr (ps : List EStep) (d d' : Record)
    (h : ∀ k ∈ readKeys, dictGet d' k = dictGet d k)
    (hgr : ∀ s ∈ ps, ∀ k ∈ stepReads s, k ∈ readKeys) :
    progWrites ps d' = progWrites ps d := by
  induction ps with
  | nil => rfl
  | cons s ps' ih =>
    simp only [progWrites]
    rw [stepWrites_congr s d d'
        (fun k hk => h k (hgr s (List.mem_cons_self _ _) k hk)),
      ih (fun s' hs' => hgr s' (List.mem_cons_of_mem _ hs'))]

/-- The keys a step actually assigns form a sublist of its static key
list. -/
theorem stepWrites_keys_sublist (s : EStep) (d : Record) :
    List.Sublist ((stepWrites s d).map Prod.fst) (stepWriteKeys s) := by
  cases s with
  | margin y =>
    simp only [stepWrites, stepWriteKeys]
    cases p_float (dictGet d (keyFy "revenue" y)) with
    | none => exact List.nil_sublist _
    | some r =>
      cases p_float (dictGet d (keyFy "ebitda" y)) with
      | none => exact List.nil_sublist _
      | some e =>
        simp only [marginWritesV]
        split
        · exact List.Sublist.refl _
        · exact List.nil_sublist _
  | growth y m =>
    simp only [stepWrites, stepWriteKeys]
    cases p_float (dictGet d (keyFy m y)) with
    | none => exact List.nil_sublist _
    | some c =>
      cases p_float (dictGet d (keyFy m (y - 1))) with
      | none => exact List.nil_sublist _
      | some p =>
        simp only [growthWritesV]
        split
        · simp only [List.map_cons, apply_ite (List.map (Prod.fst)),
            List.map_cons, List.map_nil]
          exact List.Sublist.refl _
        · exact List.nil_sublist _

/-- The keys a program actually assigns form a sublist of its static key
list. -/
theorem progWrites_keys_sublist (ps : List EStep) (d : Record) :
    List.Sublist ((progWrites ps d).map Prod.fst) (staticKeys ps) := by
  induction ps with
  | nil => exact List.nil_sublist _
  | cons s ps' ih =>
    simp only [progWrites, staticKeys, List.map_append]
    exact List.Sublist.append (stepWrites_keys_sublist s d) ih

/-- Running a program whose steps assign only derived keys preserves every
base-key lookup. -/
theorem runProg_get_reads (ps : List EStep) (d : Record) (k : String)
    (hk : k ∈ readKeys) (hdj : ∀ a ∈ derivedKeys, a ∉ readKeys)
    (hgw : ∀ s ∈ ps, ∀ k' ∈ stepWriteKeys s, k' ∈ derivedKeys) :
    dictGet (runProg ps d) k = dictGet d k := by
  induction ps generalizing d with
  | nil => rfl
  | cons s ps' ih =>
    show dictGet (runProg ps' (doStep s d)) k = dictGet d k
    rw [ih (doStep s d) (fun s' hs' => hgw s' (List.mem_cons_of_mem _ hs'))]
    exact applyWrites_get_notin (stepWrites s d) d k (fun p hp e =>
      hdj p.1
        (hgw s (List.mem_cons_self _ _) p.1
          ((stepWrites_keys_sublist s d).subset (List.mem_map_of_mem _ hp)))
        (e.symm ▸ hk))

/-- Normal form: running a read/write-disciplined program equals applying
its snapshot assignment list to the initial dictionary. -/
theorem runProg_norm (ps : List EStep) (d : Record)
    (hdj : ∀ a ∈ derivedKeys, a ∉ readKeys)
    (hgr : ∀ s ∈ ps, ∀ k ∈ stepReads s, k ∈ readKeys)
    (hgw : ∀ s ∈ ps, ∀ k ∈ stepWriteKeys s, k ∈ derivedKeys) :
    runProg ps d = applyWrites (progWrites ps d) d := by
  induction ps generalizing d with
  | nil => rfl
  | cons s ps' ih =>
    have hag : ∀ k ∈ readKeys, dictGet (doStep s d) k = dictGet d k := by
      intro k hk
      exact applyWrites_get_notin (stepWrites s d) d k (fun p hp e =>
        hdj p.1
          (hgw s (List.mem_cons_self _ _) p.1
            ((stepWrites_keys_sublist s d).subset (List.mem_map_of_mem _ hp)))
          (e.symm ▸ hk))
    show runProg ps' (doStep s d) = applyWrites (progWrites (s :: ps') d) d
    rw [ih (doStep s d) (fun s' hs' => hgr s' (List.mem_cons_of_mem _ hs'))
        (fun s' hs' => hgw s' (List.mem_cons_of_mem _ hs')),
      progWrites_congr ps' d (doStep s d) hag
        (fun s' hs' => hgr s' (List.mem_cons_of_mem _ hs')),
      show progWrites (s :: ps') d = stepWrites s d ++ progWrites ps' d
        from rfl,
      applyWrites_append]
    rfl

/-- C2 (counterexample): one generation pass does not leave the caller's
record unchanged: the enrichment loop of `populate_from_data` assigns
derived keys into the same dictionary, so a record holding only FY24 and
FY25 revenue gains `revenue_growth_fy25` and `sales_growth_fy25` bindings
in place. -/
theorem c2_enrich_mutates_counterexample :
    enrichRecord
        [("revenue_fy24", Val.num 100), ("revenue_fy25", Val.num 110)] ≠
      [("revenue_fy24", Val.num 100), ("revenue_fy25", Val.num 110)] :=
  fun h => absurd (congrArg List.length h) (by decide)

/-- C2 (amended): the enrichment loop mutates the caller's record in place,
but running the whole pass twice equals running it once: the derived keys
it assigns are disjoint from the base keys it reads, so the second pass
recomputes and rewrites exactly the same values. -/
theorem c2_enrich_idempotent_amended (d : Record) :
    enrichRecord (enrichRecord d) = enrichRecord d := by
  have hdj : ∀ a ∈ derivedKeys, a ∉ readKeys := by decide
  have hgr : ∀ s ∈ program, ∀ k ∈ stepReads s, k ∈ readKeys := by decide
  have hgw : ∀ s ∈ program, ∀ k ∈ stepWriteKeys s, k ∈ derivedKeys := by
    decide
  have hnds : (staticKeys program).Nodup := by decide
  have h1 := runProg_norm program d hdj hgr hgw
  have h2 := runProg_norm program (runProg program d) hdj hgr hgw
  have h3 : progWrites program (runProg program d) = progWrites program d :=
    progWrites_congr program d (runProg program d)
      (fun k hk => runProg_get_reads program d k hk hdj hgw) hgr
  have hnd : ((progWrites program d).map Prod.fst).Nodup :=
    List.Nodup.sublist (progWrites_keys_sublist program d) hnds
  show runProg program (runProg program d) = runProg program d
  rw [h2, h3, h1]
  exact applyWrites_idem (progWrites program d) d hnd

/-- Unfolding the fixed-image loop one slot at a time. -/
theorem processSlots_cons {Img : Type} (fetch : Val → Option Img)
    (s : ImgSlot) (l : List ImgSlot) (doc : List (List (PlacedPic Img)))
    (res : List (String × Bool)) :
    processSlots fetch (s :: l) doc res =
      processSlots fetch l (processSlot fetch doc res s).1
        (processSlot fetch doc res s).2 := rfl

/-- The fixed-image loop splits over list concatenation. -/
theorem processSlots_append {Img : Type} (fetch : Val → Option Img)
    (l1 l2 : List ImgSlot) (doc : List (List (PlacedPic Img)))
    (res : List (String × Bool)) :
    processSlots fetch (l1 ++ l2) doc res =
      processSlots fetch l2 (processSlots fetch l1 doc res).1
        (processSlots fetch l1 doc res).2 := by
  simp [processSlots, List.foldl_append]

/-- C9: a configured image slot whose URL is missing (absent, null, empty,
`"null"` or `"[null]"`) is skipped: whatever the network oracle would
answer, the document is unchanged and the slot is recorded `false`; inside
a slot list the surrounding slots are processed exactly as they would be
without the skipped slot's interference. -/
theorem c9_missing_url_skip {Img : Type} (fetch : Val → Option Img)
    (doc : List (List (PlacedPic Img))) (res : List (String × Bool))
    (pre post : List ImgSlot) (slot : ImgSlot)
    (h : urlPresent slot.url = false) :
    processSlot fetch doc res slot = (doc, resSet res slot.name false) ∧
    processSlots fetch (pre ++ slot :: post) doc res =
      processSlots fetch post (processSlots fetch pre doc res).1
        (resSet (processSlots fetch pre doc res).2 slot.name false) := by
  have h1 : ∀ (D : List (List (PlacedPic Img))) (R : List (String × Bool)),
      processSlot fetch D R slot = (D, resSet R slot.name false) := by
    intro D R
    simp [processSlot, h]
  refine ⟨h1 doc res, ?_⟩
  rw [processSlots_append, processSlots_cons, h1]

/-- Witness for C9 at the `chart_custom` slot of `fixedImages` on an empty
record, an always-succeeding oracle and a two-slide document. -/
theorem c9_missing_url_skip_witness :
    processSlot (fun _ => some true) ([[], []] : List (List (PlacedPic Bool)))
        []
        { name := "chart_custom", url := dictGet [] "chart_custom",
          slide := 10,
          pos := { left := 0.5, top := 0.75, width := 9.0,
                   height := some 4.5 },
          crop := Option.none } =
      ([[], []], resSet [] "chart_custom" false) ∧
    processSlots (fun _ => some true) ([] ++
        { name := "chart_custom", url := dictGet [] "chart_custom",
          slide := 10,
          pos := { left := 0.5, top := 0.75, width := 9.0,
                   height := some 4.5 },
          crop := Option.none } :: []) ([[], []] : List (List (PlacedPic Bool)))
        [] =
      processSlots (fun _ => some true) []
        (processSlots (fun _ => some true) [] [[], []] []).1
        (resSet (processSlots (fun _ => some true) [] [[], []] []).2
          "chart_custom" false) :=
  c9_missing_url_skip (fun _ => some true) [[], []] [] [] []
    { name := "chart_custom", url := dictGet [] "chart_custom", slide := 10,
      pos := { left := 0.5, top := 0.75, width := 9.0, height := some 4.5 },
      crop := Option.none } rfl

end PptGen
